import Mathlib

/-!
Verification of the qlasskit gate-level circuit builder (`QCircuit`).

The repository ships the unit tests (`src/test/test_qcircuit.py`) but the
`QCircuit` implementation itself is not among the provided source files, so the
circuit builder below is modelled from the specification (sections 3, 4.1-4.6
of `spec.md`), kept consistent with every behaviour the unit tests pin down
(gate-record shape, textual export bytes, ancilla reuse, uncomputation).
-/

/-- Decidable equality for `Except`, used to let `decide` evaluate concrete
runs of the fallible circuit operations. -/
instance {ε α : Type} [DecidableEq ε] [DecidableEq α] : DecidableEq (Except ε α) :=
  fun a b =>
    match a, b with
    | .ok x, .ok y =>
      if h : x = y then .isTrue (by rw [h]) else .isFalse (fun he => h (Except.ok.inj he))
    | .error x, .error y =>
      if h : x = y then .isTrue (by rw [h]) else .isFalse (fun he => h (Except.error.inj he))
    | .ok _, .error _ => .isFalse (fun he => Except.noConfusion he)
    | .error _, .ok _ => .isFalse (fun he => Except.noConfusion he)

/-- Modelled from the spec (section 3, `QubitSlot`): one register position.
`index` is assigned at registration and equals the slot's position in
registration order; `key` stores the symbolic key, with the synthesized
default `q{index}` substituted at registration when none was given (the
spec's `key: optional` refers to the registration argument; per section 4.6
and the `test_mapping` test, default keys are resolvable, hence stored). -/
structure QubitSlot where
  index : Nat
  key : String
  is_ancilla : Bool
  is_free : Bool
deriving DecidableEq

/-- Modelled from the spec (section 3, `GateRecord`): a primitive gate
application, `kind` being the lowercased gate name (the tests store records
as `("ccx", [0, 1, 2])`). -/
structure GateRecord where
  kind : String
  operands : List Nat
deriving DecidableEq

/-- Modelled from the spec (section 3, `Circuit`): the single mutable
aggregate: ordered slots plus the append-only gate log, with the circuit
name used by the textual exporter (defaults to `qc` in the tests). -/
structure QCircuit where
  name : String
  slots : List QubitSlot
  gates : List GateRecord
deriving DecidableEq

/-- Modelled from the spec (section 9): the closed variant type for
duck-typed operand references, `Key = Name(string) | Index(integer)`. -/
inductive QRef where
  | name : String → QRef
  | idx : Nat → QRef
deriving DecidableEq

/-- Decimal digit character. -/
def digitChar (d : Nat) : Char :=
  match d with
  | 0 => '0' | 1 => '1' | 2 => '2' | 3 => '3' | 4 => '4'
  | 5 => '5' | 6 => '6' | 7 => '7' | 8 => '8' | _ => '9'

/-- Decimal rendering of a natural number: digits of `n` followed by `acc`,
fuel-structured so that concrete evaluation reduces in the kernel (any
`fuel > n` is adequate, since `n / 10 < n` for `n ≥ 10`). -/
def natToStrGo (fuel : Nat) (n : Nat) (acc : List Char) : List Char :=
  match fuel with
  | 0 => acc
  | f + 1 =>
    if n < 10 then digitChar n :: acc
    else natToStrGo f (n / 10) (digitChar (n % 10) :: acc)

/-- Decimal string of a natural number. -/
def natToStr (n : Nat) : String :=
  String.mk (natToStrGo (n + 1) n [])

/-- Modelled from the spec (section 4.6): the synthesized default key
`q{index}` for a slot registered without a key. -/
def defaultKey (n : Nat) : String :=
  "q" ++ natToStr n

/-- The empty circuit (spec: "created empty"), with the exporter name. -/
def QCircuit.empty (name : String) : QCircuit :=
  QCircuit.mk name [] []

/-- `num_qubits`: count of all registered slots (spec section 4.1). -/
def QCircuit.num_qubits (qc : QCircuit) : Nat :=
  qc.slots.length

/-- Whether the slot list already holds key `k`. -/
def hasKey (slots : List QubitSlot) (k : String) : Bool :=
  slots.any (fun sl => sl.key == k)

/-- Modelled from the spec (section 4.1, `add_qubit`): allocate the next
index, create a non-ancilla slot, store the key (the synthesized default
when none is given); fail with a duplicate-key error when the key is taken. -/
def QCircuit.add_qubit (qc : QCircuit) (key : Option String) : Except String (Nat × QCircuit) :=
  let n := qc.slots.length
  let k := key.getD (defaultKey n)
  if hasKey qc.slots k then
    .error ("duplicate-key: " ++ k)
  else
    .ok (n, QCircuit.mk qc.name (qc.slots ++ [QubitSlot.mk n k false false]) qc.gates)

/-- Modelled from the spec (section 4.2, `add_ancilla`): register a new slot
with `is_ancilla = true` and the given initial free flag; return its index. -/
def QCircuit.add_ancilla (qc : QCircuit) (free : Bool) : Nat × QCircuit :=
  let n := qc.slots.length
  (n, QCircuit.mk qc.name (qc.slots ++ [QubitSlot.mk n (defaultKey n) true free]) qc.gates)

/-- Whether position `i` of the slot list holds a free ancilla. -/
def isFreeAncAt (slots : List QubitSlot) (i : Nat) : Bool :=
  match slots[i]? with
  | some sl => sl.is_ancilla && sl.is_free
  | none => false

/-- Whether position `i` of the slot list holds an ancilla slot. -/
def isAncAt (slots : List QubitSlot) (i : Nat) : Bool :=
  match slots[i]? with
  | some sl => sl.is_ancilla
  | none => false

/-- The indices (positions, in increasing order, offset by `base`) of the
free ancilla slots: the scan order of `get_free_ancilla`. -/
def freePosAux (slots : List QubitSlot) (base : Nat) : List Nat :=
  match slots with
  | [] => []
  | sl :: rest =>
    if sl.is_ancilla && sl.is_free then base :: freePosAux rest (base + 1)
    else freePosAux rest (base + 1)

/-- Set the `is_free` flag of the slot at position `i` (no other field and
no other slot changes; out-of-range positions leave the list unchanged). -/
def setFreeAt (slots : List QubitSlot) (i : Nat) (b : Bool) : List QubitSlot :=
  match slots[i]? with
  | some sl => slots.set i (QubitSlot.mk sl.index sl.key sl.is_ancilla b)
  | none => slots

/-- Modelled from the spec (section 4.2, `get_free_ancilla`): scan slots in
index order, return the first with `is_ancilla && is_free`, marking it
in-use as a side effect; fail with a no-free-ancilla error if none exists. -/
def QCircuit.get_free_ancilla (qc : QCircuit) : Except String (Nat × QCircuit) :=
  match freePosAux qc.slots 0 with
  | p :: _ => .ok (p, QCircuit.mk qc.name (setFreeAt qc.slots p false) qc.gates)
  | [] => .error "no-free-ancilla"

/-- Modelled from the spec (section 4.2, `release`): set `is_free = true`
for each given ancilla index (trusting the caller's protocol). -/
def releaseAll (slots : List QubitSlot) (idxs : List Nat) : List QubitSlot :=
  idxs.foldl (fun ss i => setFreeAt ss i true) slots

/-- Modelled from the spec (section 4.1, `get_key_by_index`): the key
registered for slot `i`, or an out-of-range error for an invalid index. -/
def QCircuit.get_key_by_index (qc : QCircuit) (i : Nat) : Except String String :=
  match qc.slots[i]? with
  | some sl => .ok sl.key
  | none => .error ("out-of-range: " ++ natToStr i)

/-- First position whose slot carries key `k`. -/
def findKeyIdx (slots : List QubitSlot) (k : String) : Option Nat :=
  match slots with
  | [] => none
  | sl :: rest =>
    if sl.key == k then some 0 else (findKeyIdx rest k).map (· + 1)

/-- Modelled from the spec (section 4.1, `resolve`): accept a raw index or a
symbolic key and return the canonical index; fail with an unknown-reference
error when no slot matches. -/
def QCircuit.resolve (qc : QCircuit) (r : QRef) : Except String Nat :=
  match r with
  | .idx i =>
    if i < qc.slots.length then .ok i else .error "unknown-reference"
  | .name s =>
    match findKeyIdx qc.slots s with
    | some i => .ok i
    | none => .error ("unknown-reference: " ++ s)

/-- Boolean membership in an index list. -/
def memb (x : Nat) (l : List Nat) : Bool :=
  match l with
  | [] => false
  | y :: ys => x == y || memb x ys

/-- Boolean pairwise-distinctness of an index list. -/
def nodupb (l : List Nat) : Bool :=
  match l with
  | [] => true
  | x :: xs => !memb x xs && nodupb xs

/-- Resolve a list of operand references left to right, stopping at the
first failure. -/
def resolveAll (qc : QCircuit) (ops : List QRef) : Except String (List Nat) :=
  match ops with
  | [] => .ok []
  | r :: rs =>
    match qc.resolve r, resolveAll qc rs with
    | .ok i, .ok is => .ok (i :: is)
    | .error e, _ => .error e
    | .ok _, .error e => .error e

/-- Modelled from the spec (section 4.3): every primitive application
resolves its operands, rejects the call with a duplicate-operand error when
the resolved indices are not pairwise distinct, and otherwise appends one
`GateRecord`; no side effect beyond the append. -/
def QCircuit.append_gate (qc : QCircuit) (kind : String) (ops : List QRef) :
    Except String QCircuit :=
  match resolveAll qc ops with
  | .error e => .error e
  | .ok idxs =>
    if nodupb idxs then
      .ok (QCircuit.mk qc.name qc.slots (qc.gates ++ [GateRecord.mk kind idxs]))
    else
      .error "duplicate-operand"

/-- `X` gate (1 operand). -/
def QCircuit.x (qc : QCircuit) (t : QRef) : Except String QCircuit :=
  qc.append_gate "x" [t]

/-- `CX` gate (control, target). -/
def QCircuit.cx (qc : QCircuit) (c t : QRef) : Except String QCircuit :=
  qc.append_gate "cx" [c, t]

/-- `CCX` (Toffoli) gate (control, control, target). -/
def QCircuit.ccx (qc : QCircuit) (c1 c2 t : QRef) : Except String QCircuit :=
  qc.append_gate "ccx" [c1, c2, t]

/-- `toffoli` is an alias for `ccx`. -/
def QCircuit.toffoli (qc : QCircuit) (c1 c2 t : QRef) : Except String QCircuit :=
  qc.ccx c1 c2 t

/-- Modelled from the spec (section 4.4, `fredkin`): the standard 3-gate
decomposition of a controlled swap of `a`,`b` under control `c` into
`CX`/`CCX` primitives, allocating no ancilla. -/
def QCircuit.fredkin (qc : QCircuit) (c a b : QRef) : Except String QCircuit :=
  match qc.cx b a with
  | .error e => .error e
  | .ok qc1 =>
    match qc1.ccx c a b with
    | .error e => .error e
    | .ok qc2 => qc2.cx b a

/-- Modelled from the spec (section 4.4): obtain one decomposition ancilla,
always trying `get_free_ancilla()` before registering a new (in-use)
ancilla. -/
def allocAncilla (qc : QCircuit) : Nat × QCircuit :=
  match qc.get_free_ancilla with
  | .ok r => r
  | .error _ => qc.add_ancilla false

/-- Modelled from the spec (section 4.4, `mcx` body): left-to-right `CCX`
chain over the resolved control indices; one control emits `CX`, two emit
`CCX`, more fold the two leftmost controls into an allocated ancilla and
continue with that ancilla as the leftmost control. -/
def mcxChain (qc : QCircuit) (c1 : Nat) (rest : List Nat) (t : Nat) :
    Except String QCircuit :=
  match rest with
  | [] => qc.append_gate "cx" [.idx c1, .idx t]
  | [c2] => qc.append_gate "ccx" [.idx c1, .idx c2, .idx t]
  | c2 :: c3 :: cs =>
    match ((allocAncilla qc).2).append_gate "ccx"
        [.idx c1, .idx c2, .idx (allocAncilla qc).1] with
    | .error e => .error e
    | .ok qc2 => mcxChain qc2 (allocAncilla qc).1 (c3 :: cs) t

/-- Modelled from the spec (section 4.4, `mcx`): resolve the controls and
the target, then emit the control chain. -/
def QCircuit.mcx (qc : QCircuit) (controls : List QRef) (target : QRef) :
    Except String QCircuit :=
  match resolveAll qc controls, qc.resolve target with
  | .ok [], .ok _ => .error "mcx: empty control set"
  | .ok (c1 :: rest), .ok t => mcxChain qc c1 rest t
  | .error e, _ => .error e
  | _, .error e => .error e

/-- Does the gate record touch any of the given indices? -/
def GateRecord.touches (g : GateRecord) (idxs : List Nat) : Bool :=
  g.operands.any (fun o => memb o idxs)

/-- Modelled from the spec (section 4.5, `uncompute`): check every given
index is a registered ancilla (invalid-ancilla error otherwise), collect in
original order the gate records touching any given index, append that
subsequence in reverse order unchanged, and mark every given index free. -/
def QCircuit.uncompute (qc : QCircuit) (idxs : List Nat) : Except String QCircuit :=
  if idxs.all (fun i => isAncAt qc.slots i) then
    let touched := qc.gates.filter (fun g => g.touches idxs)
    .ok (QCircuit.mk qc.name (releaseAll qc.slots idxs) (qc.gates ++ touched.reverse))
  else
    .error "invalid-ancilla"

/-- Concatenation of a list of strings. -/
def strConcat (l : List String) : String :=
  match l with
  | [] => ""
  | a :: rest => a ++ strConcat rest

/-- The key rendered for operand index `i` by the exporters. -/
def keyOfIndex (qc : QCircuit) (i : Nat) : String :=
  match qc.slots[i]? with
  | some sl => sl.key
  | none => defaultKey i

/-- One tab-indented body line of the textual export. -/
def gateLine (qc : QCircuit) (g : GateRecord) : String :=
  "\t" ++ g.kind ++ strConcat (g.operands.map (fun i => " " ++ keyOfIndex qc i)) ++ "\n"

/-- Modelled from the spec (section 4.6, textual gate-block format): a named
gate definition whose parameter list is the ordered qubit keys and whose
body lists one line per gate record, byte-exact. -/
def QCircuit.export_qasm (qc : QCircuit) : String :=
  "gate " ++ qc.name ++ strConcat (qc.slots.map (fun sl => " " ++ sl.key))
    ++ " \x7b\n" ++ strConcat (qc.gates.map (gateLine qc)) ++ "\x7d\n\n"

/-- Modelled from the spec (section 6, `export`): the textual backend
returns the gate-block text; the symbolic-algebra and simulator backends
build third-party objects and are outside this model, so only the textual
rendering is represented, with the unsupported-backend failure for
unrecognized targets. -/
def QCircuit.export (qc : QCircuit) (mode backend : String) : Except String String :=
  if backend == "qasm" then
    if mode == "gate" then .ok qc.export_qasm else .error "unsupported-mode"
  else
    .error ("unsupported-backend: " ++ backend)

/-- Slots of the `QCircuit(n)` constructor: `n` non-ancilla qubits with the
synthesized default keys, indices starting at `base`. -/
def initSlots (base n : Nat) : List QubitSlot :=
  match n with
  | 0 => []
  | k + 1 => QubitSlot.mk base (defaultKey base) false false :: initSlots (base + 1) k

/-- Modelled from the spec / `test_mapping`: `QCircuit(n)` pre-registers `n`
non-ancilla qubit slots keyed with the synthesized defaults. -/
def QCircuit.init (name : String) (n : Nat) : QCircuit :=
  QCircuit.mk name (initSlots 0 n) []

/-- A sequence of `add_qubit` calls, returning the indices each call
returned together with the final circuit. -/
def addQubits (qc : QCircuit) (keys : List (Option String)) :
    Except String (List Nat × QCircuit) :=
  match keys with
  | [] => .ok ([], qc)
  | k :: ks =>
    match qc.add_qubit k with
    | .error e => .error e
    | .ok (i, qc1) =>
      match addQubits qc1 ks with
      | .error e => .error e
      | .ok (is, qc2) => .ok (i :: is, qc2)

/-- Basis-state simulation (the external simulator's semantics on
computational basis states): read bit `i`. -/
def getBit (s : List Bool) (i : Nat) : Bool :=
  s.getD i false

/-- Flip bit `i` of a basis state. -/
def flipBit (s : List Bool) (i : Nat) : List Bool :=
  s.set i (!getBit s i)

/-- Basis-state action of one primitive gate record. -/
def applyGate (s : List Bool) (g : GateRecord) : List Bool :=
  match g.kind, g.operands with
  | "x", [t] => flipBit s t
  | "cx", [c, t] => if getBit s c then flipBit s t else s
  | "ccx", [c1, c2, t] => if getBit s c1 && getBit s c2 then flipBit s t else s
  | _, _ => s

/-- Basis-state run of a gate log. -/
def runGates (s : List Bool) (gs : List GateRecord) : List Bool :=
  gs.foldl applyGate s

/-- The measured bitstring of a basis state, qubit `0` first. -/
def bitString (s : List Bool) : String :=
  strConcat (s.map (fun b => if b then "1" else "0"))

/-- Decimal digit value (inverse of `digitChar` on digits). -/
def digitVal (c : Char) : Nat :=
  match c with
  | '0' => 0 | '1' => 1 | '2' => 2 | '3' => 3 | '4' => 4
  | '5' => 5 | '6' => 6 | '7' => 7 | '8' => 8 | _ => 9

/-- Parse a decimal digit list. -/
def parseDigits (l : List Char) : Nat :=
  l.foldl (fun a c => a * 10 + digitVal c) 0

/-- Number of decimal digits, fuel-structured like `natToStrGo`. -/
def digitCountGo (fuel n : Nat) : Nat :=
  match fuel with
  | 0 => 0
  | f + 1 => if n < 10 then 1 else digitCountGo f (n / 10) + 1

/-- Number of decimal digits. -/
def digitCount (n : Nat) : Nat :=
  digitCountGo (n + 1) n

/-- The ancilla indices an mcx decomposition consumes, in order: the free
ancilla scan list is reused first (in scan order), then fresh indices are
registered starting at the current qubit count. -/
def allocs (free : List Nat) (n k : Nat) : List Nat :=
  match k with
  | 0 => []
  | k' + 1 =>
    match free with
    | f :: fs => f :: allocs fs n k'
    | [] => n :: allocs [] (n + 1) k'

/-- The left-to-right CCX chain the spec describes for controls
`c1 :: c2 :: cs` with intermediate ancillas `ancs` (one per element of
`cs`): each step folds the two leftmost live controls into the next
ancilla, and the last CCX targets `t`. -/
def chainGates (c1 c2 : Nat) (cs ancs : List Nat) (t : Nat) : List GateRecord :=
  match cs, ancs with
  | [], _ => [GateRecord.mk "ccx" [c1, c2, t]]
  | c :: cs2, a :: ancs2 => GateRecord.mk "ccx" [c1, c2, a] :: chainGates a c cs2 ancs2 t
  | _ :: _, [] => []

/-- Spec-side description of the gate records `mcx` emits for a resolved
control list (section 4.4): `CX` for one control, `CCX` for two, and the
ancilla chain for more. -/
def mcxGatesSpec (controls : List Nat) (t : Nat) (ancs : List Nat) : List GateRecord :=
  match controls with
  | [] => []
  | [c] => [GateRecord.mk "cx" [c, t]]
  | [c1, c2] => [GateRecord.mk "ccx" [c1, c2, t]]
  | c1 :: c2 :: cs => chainGates c1 c2 cs ancs t

/-- Space-separated join, the spec's `<key0> <key1> ...` notation. -/
def spaceJoin (l : List String) : String :=
  match l with
  | [] => ""
  | [a] => a
  | a :: rest => a ++ " " ++ spaceJoin rest

/-- The textual format contract written from the spec's words (section 6):
`"gate <name> <key0> <key1> ... \x7b\n\t<op0> <ka> <kb> ...\n...\x7d\n\n"`
with two trailing newlines, one tab per gate line, keys in registration
order. -/
def qasmSpecText (qc : QCircuit) : String :=
  spaceJoin ("gate" :: qc.name :: qc.slots.map QubitSlot.key) ++ " \x7b\n"
    ++ strConcat (qc.gates.map (fun g =>
        "\t" ++ spaceJoin (g.kind :: g.operands.map (keyOfIndex qc)) ++ "\n"))
    ++ "\x7d\n\n"

/-- Scenario of `test_export_qasm`: two keyless qubits, `X(a)`, `CX(a, b)`,
textual export. -/
def exportScenario : Except String String := do
  let qc := QCircuit.empty "qc"
  let (a, qc) ← qc.add_qubit none
  let (b, qc) ← qc.add_qubit none
  let qc ← qc.x (.idx a)
  let qc ← qc.cx (.idx a) (.idx b)
  qc.export "gate" "qasm"

/-- Scenario of `test_duplicate_qubit`: qubits `a`, `b`, then
`toffoli(a, b, a)`, which repeats `a` in two roles. -/
def c7Scenario : Except String QCircuit := do
  let qc := QCircuit.empty "qc"
  let (a, qc) ← qc.add_qubit (some "a")
  let (b, qc) ← qc.add_qubit (some "b")
  qc.toffoli (.idx a) (.idx b) (.idx a)

/-- Scenario of `test_export_qiskit_fredkin`: three keyless qubits, `X(a)`,
`X(b)`, `fredkin(a, b, c)`. -/
def fredkinScenario : Except String QCircuit := do
  let qc := QCircuit.empty "qc"
  let (a, qc) ← qc.add_qubit none
  let (b, qc) ← qc.add_qubit none
  let (c, qc) ← qc.add_qubit none
  let qc ← qc.x (.idx a)
  let qc ← qc.x (.idx b)
  qc.fredkin (.idx a) (.idx b) (.idx c)

/-- Witness input for the mcx decomposition: four qubits and one free
ancilla at index 4. -/
def c3wCircuit : QCircuit :=
  ((QCircuit.init "qc" 4).add_ancilla true).2

/-- One free ancilla on an otherwise empty circuit (witness input). -/
def c5wA : QCircuit :=
  ((QCircuit.empty "qc").add_ancilla true).2

/-- The immutable core of a slot: every field except the `is_free` flag. -/
def slotCore (sl : QubitSlot) : Nat × String × Bool :=
  (sl.index, sl.key, sl.is_ancilla)

/-- The slot core stored at position `i`, if any. -/
def slotCoreAt (slots : List QubitSlot) (i : Nat) : Option (Nat × String × Bool) :=
  (slots[i]?).map slotCore

/-! ### The append-only evolution order on circuits -/

/-- `CircuitExtends qc qc'` says `qc'` is reachable from `qc` by append-only
changes: the old gate log is an initial segment of the new one, no slot
disappears, and every existing slot keeps its index, key and ancilla flag
(only its `is_free` flag may differ). -/
def CircuitExtends (qc qc' : QCircuit) : Prop :=
  (∃ gs, qc'.gates = qc.gates ++ gs) ∧
  qc.slots.length ≤ qc'.slots.length ∧
  (∀ j, j < qc.slots.length → slotCoreAt qc'.slots j = slotCoreAt qc.slots j)

/-- The circuit-mutating operations of the public interface (the exporters
are pure functions of the circuit and mutate nothing). -/
inductive QOp where
  | addQubit : Option String → QOp
  | addAncilla : Bool → QOp
  | gate : String → List QRef → QOp
  | freeAncilla : QOp
  | rel : List Nat → QOp
  | mcxOp : List QRef → QRef → QOp
  | fredkinOp : QRef → QRef → QRef → QOp
  | uncomputeOp : List Nat → QOp

/-- Run one interface operation on the circuit (any returned index is
dropped; errors abort). -/
def applyOp (op : QOp) (qc : QCircuit) : Except String QCircuit :=
  match op with
  | .addQubit k => (qc.add_qubit k).map Prod.snd
  | .addAncilla b => .ok (qc.add_ancilla b).2
  | .gate kind ops => qc.append_gate kind ops
  | .freeAncilla => qc.get_free_ancilla.map Prod.snd
  | .rel idxs => .ok (QCircuit.mk qc.name (releaseAll qc.slots idxs) qc.gates)
  | .mcxOp cs t => qc.mcx cs t
  | .fredkinOp c a b => qc.fredkin c a b
  | .uncomputeOp idxs => qc.uncompute idxs

/-- Run a sequence of interface operations, stopping at the first error. -/
def applyOps (ops : List QOp) (qc : QCircuit) : Except String QCircuit :=
  match ops with
  | [] => .ok qc
  | op :: rest =>
    match applyOp op qc with
    | .error e => .error e
    | .ok qc1 => applyOps rest qc1

/-- Result circuit of the dense-index witness run. -/
def c4wResult : QCircuit :=
  match addQubits (QCircuit.empty "qc") [some "a", none] with
  | .ok (_, q) => q
  | .error _ => QCircuit.empty "qc"

/-- Operation sequence used to witness the append-only property. -/
def c9wOps : List QOp :=
  [QOp.addQubit none, QOp.addQubit (some "a"), QOp.addAncilla false,
   QOp.gate "x" [QRef.idx 0], QOp.mcxOp [QRef.idx 0, QRef.name "a"] (QRef.idx 2),
   QOp.uncomputeOp [2], QOp.freeAncilla]

/-- Start circuit of the append-only witness. -/
def c9wStart : QCircuit :=
  QCircuit.empty "qc"

/-- Result circuit of the append-only witness run. -/
def c9wResult : QCircuit :=
  match applyOps c9wOps c9wStart with
  | .ok q => q
  | .error _ => c9wStart


/-- All eight 3-qubit basis states. -/
def basis3 : List (List Bool) :=
  [[false, false, false], [false, false, true], [false, true, false],
   [false, true, true], [true, false, false], [true, false, true],
   [true, true, false], [true, true, true]]

/-- The three records `fredkin(0, 1, 2)` emits on wires 0, 1, 2. -/
def fredkinGates012 : List GateRecord :=
  [GateRecord.mk "cx" [2, 1], GateRecord.mk "ccx" [0, 1, 2], GateRecord.mk "cx" [2, 1]]

/-- Witness input for uncomputation: two qubits, two in-use ancillas, a CCX
writing ancilla 2 and a CX writing qubit 3 from it. -/
def c1wCircuit : QCircuit :=
  match applyOps [QOp.addQubit none, QOp.addQubit none, QOp.addAncilla false,
    QOp.addAncilla false, QOp.gate "ccx" [QRef.idx 0, QRef.idx 1, QRef.idx 2],
    QOp.gate "cx" [QRef.idx 2, QRef.idx 3]] (QCircuit.empty "qc") with
  | .ok q => q
  | .error _ => QCircuit.empty "qc"

/-! ### Helper lemmas: slots, flags and scans -/

theorem freePosAux_cons_free (sl : QubitSlot) (rest : List QubitSlot) (b : Nat)
    (h : (sl.is_ancilla && sl.is_free) = true) :
    freePosAux (sl :: rest) b = b :: freePosAux rest (b + 1) := by
  simp [freePosAux, h]

theorem freePosAux_cons_not_free (sl : QubitSlot) (rest : List QubitSlot) (b : Nat)
    (h : (sl.is_ancilla && sl.is_free) = false) :
    freePosAux (sl :: rest) b = freePosAux rest (b + 1) := by
  simp [freePosAux, h]

theorem setFreeAt_oob (ss : List QubitSlot) (i : Nat) (b : Bool) (h : ss[i]? = none) :
    setFreeAt ss i b = ss := by
  unfold setFreeAt
  rw [h]

theorem setFreeAt_cons_zero (sl : QubitSlot) (rest : List QubitSlot) (b : Bool) :
    setFreeAt (sl :: rest) 0 b = QubitSlot.mk sl.index sl.key sl.is_ancilla b :: rest := by
  simp [setFreeAt]

theorem setFreeAt_cons_succ (sl : QubitSlot) (rest : List QubitSlot) (i : Nat) (b : Bool) :
    setFreeAt (sl :: rest) (i + 1) b = sl :: setFreeAt rest i b := by
  unfold setFreeAt
  rw [List.getElem?_cons_succ]
  cases h : rest[i]?
  · rfl
  · simp only [List.set_cons_succ]

theorem length_setFreeAt (ss : List QubitSlot) (i : Nat) (b : Bool) :
    (setFreeAt ss i b).length = ss.length := by
  unfold setFreeAt
  cases h : ss[i]? <;> simp

theorem getElem?_setFreeAt_ne (ss : List QubitSlot) (i : Nat) (b : Bool) (j : Nat)
    (h : i ≠ j) : (setFreeAt ss i b)[j]? = ss[j]? := by
  unfold setFreeAt
  cases h2 : ss[i]?
  · rfl
  · exact List.getElem?_set_ne h

theorem getElem?_setFreeAt_self (ss : List QubitSlot) (i : Nat) (b : Bool) (sl : QubitSlot)
    (h : ss[i]? = some sl) :
    (setFreeAt ss i b)[i]? = some (QubitSlot.mk sl.index sl.key sl.is_ancilla b) := by
  unfold setFreeAt
  rw [h]
  exact List.getElem?_set_self (List.getElem?_eq_some.mp h).1

theorem slotCoreAt_setFreeAt (ss : List QubitSlot) (i : Nat) (b : Bool) (j : Nat) :
    slotCoreAt (setFreeAt ss i b) j = slotCoreAt ss j := by
  unfold slotCoreAt
  by_cases hij : i = j
  · subst hij
    cases h : ss[i]? with
    | none => rw [setFreeAt_oob ss i b h, h]
    | some sl => rw [getElem?_setFreeAt_self ss i b sl h]; rfl
  · rw [getElem?_setFreeAt_ne ss i b j hij]

theorem isAncAt_congr (ss ss' : List QubitSlot) (j : Nat)
    (h : slotCoreAt ss j = slotCoreAt ss' j) : isAncAt ss j = isAncAt ss' j := by
  unfold slotCoreAt at h
  unfold isAncAt
  cases h1 : ss[j]? with
  | none =>
    cases h2 : ss'[j]? with
    | none => rfl
    | some b => rw [h1, h2] at h; exact absurd h (by simp)
  | some a =>
    cases h2 : ss'[j]? with
    | none => rw [h1, h2] at h; exact absurd h (by simp)
    | some b =>
      rw [h1, h2] at h
      have h3 := Option.some.inj h
      exact congrArg (fun t => t.2.2) h3

theorem length_releaseAll (idxs : List Nat) : ∀ ss : List QubitSlot,
    (releaseAll ss idxs).length = ss.length := by
  induction idxs with
  | nil => intro ss; rfl
  | cons x rest ih =>
    intro ss
    show (releaseAll (setFreeAt ss x true) rest).length = ss.length
    rw [ih, length_setFreeAt]

theorem getElem?_releaseAll_not_mem (idxs : List Nat) : ∀ (ss : List QubitSlot) (j : Nat),
    j ∉ idxs → (releaseAll ss idxs)[j]? = ss[j]? := by
  induction idxs with
  | nil => intro ss j _; rfl
  | cons x rest ih =>
    intro ss j hj
    have hxj : x ≠ j := by
      intro he
      subst he
      exact hj (List.mem_cons_self x rest)
    show (releaseAll (setFreeAt ss x true) rest)[j]? = ss[j]?
    rw [ih _ _ (fun hmem => hj (List.mem_cons_of_mem _ hmem)),
      getElem?_setFreeAt_ne _ _ _ _ hxj]

theorem slotCoreAt_releaseAll (idxs : List Nat) : ∀ (ss : List QubitSlot) (j : Nat),
    slotCoreAt (releaseAll ss idxs) j = slotCoreAt ss j := by
  induction idxs with
  | nil => intro ss j; rfl
  | cons x rest ih =>
    intro ss j
    show slotCoreAt (releaseAll (setFreeAt ss x true) rest) j = slotCoreAt ss j
    rw [ih, slotCoreAt_setFreeAt]

theorem isFreeAncAt_releaseAll_mem (idxs : List Nat) : ∀ (ss : List QubitSlot) (i : Nat),
    i ∈ idxs → isAncAt ss i = true → i < ss.length →
    isFreeAncAt (releaseAll ss idxs) i = true := by
  induction idxs with
  | nil => intro ss i hmem; cases hmem
  | cons x rest ih =>
    intro ss i hmem ha hlt
    show isFreeAncAt (releaseAll (setFreeAt ss x true) rest) i = true
    by_cases hr : i ∈ rest
    · refine ih _ _ hr ?_ ?_
      · rw [isAncAt_congr _ ss i (slotCoreAt_setFreeAt ss x true i)]
        exact ha
      · rw [length_setFreeAt]; exact hlt
    · have hx : i = x := by
        cases hmem with
        | head => rfl
        | tail _ h => exact absurd h hr
      subst hx
      cases hs : ss[i]? with
      | none =>
        have := List.getElem?_eq_none_iff.mp hs
        omega
      | some sl =>
        have hanc : sl.is_ancilla = true := by
          unfold isAncAt at ha
          rw [hs] at ha
          exact ha
        unfold isFreeAncAt
        rw [getElem?_releaseAll_not_mem rest _ i hr,
          getElem?_setFreeAt_self ss i true sl hs]
        simp [hanc]

theorem mem_freePosAux (ss : List QubitSlot) : ∀ (b p : Nat),
    p ∈ freePosAux ss b ↔ (b ≤ p ∧ isFreeAncAt ss (p - b) = true) := by
  induction ss with
  | nil =>
    intro b p
    simp [freePosAux, isFreeAncAt]
  | cons sl rest ih =>
    intro b p
    cases hf : sl.is_ancilla && sl.is_free with
    | true =>
      rw [freePosAux_cons_free sl rest b hf]
      simp only [List.mem_cons, ih (b + 1) p]
      constructor
      · rintro (rfl | ⟨hle, hfree⟩)
        · refine ⟨Nat.le_refl _, ?_⟩
          have he : p - p = 0 := by omega
          rw [he]
          unfold isFreeAncAt
          rw [List.getElem?_cons_zero]
          exact hf
        · refine ⟨by omega, ?_⟩
          have he : p - b = (p - (b + 1)) + 1 := by omega
          rw [he]
          unfold isFreeAncAt
          rw [List.getElem?_cons_succ]
          exact hfree
      · rintro ⟨hle, hfree⟩
        by_cases hpb : p = b
        · exact Or.inl hpb
        · right
          refine ⟨by omega, ?_⟩
          have he : p - b = (p - (b + 1)) + 1 := by omega
          rw [he] at hfree
          unfold isFreeAncAt at hfree
          rw [List.getElem?_cons_succ] at hfree
          exact hfree
    | false =>
      rw [freePosAux_cons_not_free sl rest b hf]
      rw [ih (b + 1) p]
      constructor
      · rintro ⟨hle, hfree⟩
        refine ⟨by omega, ?_⟩
        have he : p - b = (p - (b + 1)) + 1 := by omega
        rw [he]
        unfold isFreeAncAt
        rw [List.getElem?_cons_succ]
        exact hfree
      · rintro ⟨hle, hfree⟩
        by_cases hpb : p = b
        · subst hpb
          have he : p - p = 0 := by omega
          rw [he] at hfree
          unfold isFreeAncAt at hfree
          simp [hf] at hfree
        · refine ⟨by omega, ?_⟩
          have he : p - b = (p - (b + 1)) + 1 := by omega
          rw [he] at hfree
          unfold isFreeAncAt at hfree
          rw [List.getElem?_cons_succ] at hfree
          exact hfree

theorem mem_freePosAux_zero (ss : List QubitSlot) (p : Nat) :
    p ∈ freePosAux ss 0 ↔ isFreeAncAt ss p = true := by
  rw [mem_freePosAux ss 0 p]
  constructor
  · rintro ⟨_, h⟩
    simpa using h
  · intro h
    exact ⟨Nat.zero_le _, by simpa using h⟩

theorem le_of_mem_freePosAux (ss : List QubitSlot) (b p : Nat)
    (h : p ∈ freePosAux ss b) : b ≤ p :=
  ((mem_freePosAux ss b p).mp h).1

theorem freePosAux_sorted (ss : List QubitSlot) : ∀ b : Nat,
    List.Pairwise (· < ·) (freePosAux ss b) := by
  induction ss with
  | nil => intro b; exact List.Pairwise.nil
  | cons sl rest ih =>
    intro b
    cases hf : sl.is_ancilla && sl.is_free with
    | true =>
      rw [freePosAux_cons_free sl rest b hf]
      refine List.pairwise_cons.mpr ⟨?_, ih (b + 1)⟩
      intro q hq
      have := le_of_mem_freePosAux rest (b + 1) q hq
      omega
    | false =>
      rw [freePosAux_cons_not_free sl rest b hf]
      exact ih (b + 1)

theorem freePos_head_least (ss : List QubitSlot) (p : Nat) (ps : List Nat)
    (h : freePosAux ss 0 = p :: ps) :
    isFreeAncAt ss p = true ∧ ∀ q, q < p → isFreeAncAt ss q = false := by
  constructor
  · exact (mem_freePosAux_zero ss p).mp (h ▸ List.mem_cons_self p ps)
  · intro q hq
    by_contra hne
    have hqt : isFreeAncAt ss q = true := by
      cases hb : isFreeAncAt ss q
      · exact absurd hb hne
      · rfl
    have hmem : q ∈ freePosAux ss 0 := (mem_freePosAux_zero ss q).mpr hqt
    rw [h] at hmem
    cases hmem with
    | head => omega
    | tail _ hmem2 =>
      have hsort := freePosAux_sorted ss 0
      rw [h] at hsort
      have := (List.pairwise_cons.mp hsort).1 q hmem2
      omega

theorem freePosAux_setFreeAt_head (ss : List QubitSlot) : ∀ (b p : Nat) (ps : List Nat),
    freePosAux ss b = p :: ps →
    freePosAux (setFreeAt ss (p - b) false) b = ps := by
  induction ss with
  | nil => intro b p ps h; cases h
  | cons sl rest ih =>
    intro b p ps h
    cases hf : sl.is_ancilla && sl.is_free with
    | true =>
      rw [freePosAux_cons_free sl rest b hf] at h
      have hp : p = b := (List.cons.inj h).1.symm
      have hps : ps = freePosAux rest (b + 1) := (List.cons.inj h).2.symm
      subst hp
      have he : p - p = 0 := by omega
      rw [he, setFreeAt_cons_zero]
      rw [freePosAux_cons_not_free _ _ _ (by simp)]
      exact hps.symm
    | false =>
      rw [freePosAux_cons_not_free sl rest b hf] at h
      have hple : b + 1 ≤ p :=
        le_of_mem_freePosAux rest (b + 1) p (h ▸ List.mem_cons_self p ps)
      have he : p - b = (p - (b + 1)) + 1 := by omega
      rw [he, setFreeAt_cons_succ]
      rw [freePosAux_cons_not_free _ _ _ hf]
      exact ih (b + 1) p ps h

theorem freePosAux_append_not_free (sl : QubitSlot) (hsl : sl.is_free = false) :
    ∀ (ss : List QubitSlot) (b : Nat), freePosAux (ss ++ [sl]) b = freePosAux ss b := by
  intro ss
  induction ss with
  | nil =>
    intro b
    show freePosAux [sl] b = []
    rw [freePosAux_cons_not_free _ _ _ (by simp [hsl])]
    rfl
  | cons x rest ih =>
    intro b
    cases hf : x.is_ancilla && x.is_free with
    | true =>
      rw [List.cons_append, freePosAux_cons_free x _ b hf, freePosAux_cons_free x rest b hf,
        ih (b + 1)]
    | false =>
      rw [List.cons_append, freePosAux_cons_not_free x _ b hf,
        freePosAux_cons_not_free x rest b hf, ih (b + 1)]

theorem memb_iff (x : Nat) (l : List Nat) : memb x l = true ↔ x ∈ l := by
  induction l with
  | nil => simp [memb]
  | cons y ys ih => simp [memb, ih, Nat.beq_eq]

theorem nodupb_cons (x : Nat) (xs : List Nat) :
    nodupb (x :: xs) = (!memb x xs && nodupb xs) := rfl

theorem nodupb_iff (l : List Nat) : nodupb l = true ↔ l.Nodup := by
  induction l with
  | nil => simp [nodupb]
  | cons x xs ih =>
    rw [List.nodup_cons, ← ih, nodupb_cons]
    constructor
    · intro h
      have h1 := (Bool.and_eq_true _ _).mp h
      refine ⟨fun hmem => ?_, h1.2⟩
      have hm := (memb_iff x xs).mpr hmem
      rw [hm] at h1
      exact absurd h1.1 (by simp)
    · rintro ⟨hx, hd⟩
      refine (Bool.and_eq_true _ _).mpr ⟨?_, hd⟩
      cases hm : memb x xs with
      | true => exact absurd ((memb_iff x xs).mp hm) hx
      | false => rfl

theorem resolve_idx (qc : QCircuit) (i : Nat) (h : i < qc.slots.length) :
    qc.resolve (.idx i) = .ok i := by
  simp [QCircuit.resolve, h]

theorem resolveAll_idx (qc : QCircuit) (l : List Nat)
    (h : ∀ x ∈ l, x < qc.slots.length) :
    resolveAll qc (l.map QRef.idx) = .ok l := by
  induction l with
  | nil => rfl
  | cons x xs ih =>
    show resolveAll qc (QRef.idx x :: xs.map QRef.idx) = .ok (x :: xs)
    unfold resolveAll
    rw [resolve_idx qc x (h x (List.mem_cons_self x xs)),
      ih (fun y hy => h y (List.mem_cons_of_mem x hy))]

theorem append_gate_ok (qc : QCircuit) (kind : String) (ops : List QRef) (idxs : List Nat)
    (h : resolveAll qc ops = .ok idxs) (hn : nodupb idxs = true) :
    qc.append_gate kind ops =
      .ok (QCircuit.mk qc.name qc.slots (qc.gates ++ [GateRecord.mk kind idxs])) := by
  unfold QCircuit.append_gate
  rw [h]
  simp [hn]

theorem append_gate_dup (qc : QCircuit) (kind : String) (ops : List QRef) (idxs : List Nat)
    (h : resolveAll qc ops = .ok idxs) (hn : nodupb idxs = false) :
    qc.append_gate kind ops = .error "duplicate-operand" := by
  unfold QCircuit.append_gate
  rw [h]
  simp [hn]

theorem isFreeAncAt_append_left (ss : List QubitSlot) (sl : QubitSlot) (j : Nat)
    (h : j < ss.length) : isFreeAncAt (ss ++ [sl]) j = isFreeAncAt ss j := by
  unfold isFreeAncAt
  rw [List.getElem?_append_left h]

theorem isFreeAncAt_append_self (ss : List QubitSlot) (sl : QubitSlot) :
    isFreeAncAt (ss ++ [sl]) ss.length = (sl.is_ancilla && sl.is_free) := by
  unfold isFreeAncAt
  simp

theorem lt_length_of_isFreeAncAt (ss : List QubitSlot) (j : Nat)
    (h : isFreeAncAt ss j = true) : j < ss.length := by
  unfold isFreeAncAt at h
  cases h2 : ss[j]? with
  | none => rw [h2] at h; cases h
  | some sl => exact (List.getElem?_eq_some.mp h2).1

theorem lt_length_of_isAncAt (ss : List QubitSlot) (j : Nat)
    (h : isAncAt ss j = true) : j < ss.length := by
  unfold isAncAt at h
  cases h2 : ss[j]? with
  | none => rw [h2] at h; cases h
  | some sl => exact (List.getElem?_eq_some.mp h2).1

theorem slotCoreAt_append_left (ss ss' : List QubitSlot) (j : Nat)
    (h : j < ss.length) : slotCoreAt (ss ++ ss') j = slotCoreAt ss j := by
  unfold slotCoreAt
  rw [List.getElem?_append_left h]

theorem circuitExtends_refl (qc : QCircuit) : CircuitExtends qc qc :=
  ⟨⟨[], by simp⟩, Nat.le_refl _, fun _ _ => rfl⟩

theorem circuitExtends_trans (a b c : QCircuit)
    (h1 : CircuitExtends a b) (h2 : CircuitExtends b c) : CircuitExtends a c := by
  obtain ⟨⟨gs1, hg1⟩, hl1, hc1⟩ := h1
  obtain ⟨⟨gs2, hg2⟩, hl2, hc2⟩ := h2
  refine ⟨⟨gs1 ++ gs2, ?_⟩, Nat.le_trans hl1 hl2, ?_⟩
  · rw [hg2, hg1, List.append_assoc]
  · intro j hj
    rw [hc2 j (Nat.lt_of_lt_of_le hj hl1), hc1 j hj]

theorem add_qubit_extends (qc : QCircuit) (k : Option String) (n : Nat) (qc' : QCircuit)
    (h : qc.add_qubit k = .ok (n, qc')) : CircuitExtends qc qc' := by
  unfold QCircuit.add_qubit at h
  by_cases hk : hasKey qc.slots (k.getD (defaultKey qc.slots.length)) = true
  · rw [if_pos hk] at h; cases h
  · rw [if_neg hk] at h
    cases h
    refine ⟨⟨[], by simp⟩, by simp, ?_⟩
    intro j hj
    exact slotCoreAt_append_left _ _ j hj

theorem add_ancilla_extends (qc : QCircuit) (b : Bool) :
    CircuitExtends qc (qc.add_ancilla b).2 := by
  refine ⟨⟨[], by simp [QCircuit.add_ancilla]⟩, by simp [QCircuit.add_ancilla], ?_⟩
  intro j hj
  exact slotCoreAt_append_left _ _ j hj

theorem get_free_ancilla_extends (qc : QCircuit) (p : Nat) (qc' : QCircuit)
    (h : qc.get_free_ancilla = .ok (p, qc')) : CircuitExtends qc qc' := by
  unfold QCircuit.get_free_ancilla at h
  cases hf : freePosAux qc.slots 0 with
  | nil => rw [hf] at h; cases h
  | cons q ps =>
    rw [hf] at h
    cases h
    refine ⟨⟨[], by simp⟩, by rw [length_setFreeAt], ?_⟩
    intro j hj
    exact slotCoreAt_setFreeAt _ _ _ _

theorem append_gate_extends (qc : QCircuit) (kind : String) (ops : List QRef)
    (qc' : QCircuit) (h : qc.append_gate kind ops = .ok qc') : CircuitExtends qc qc' := by
  unfold QCircuit.append_gate at h
  split at h
  · cases h
  · split at h
    · cases h
      rename_i idxs hr hn
      exact ⟨⟨[GateRecord.mk kind idxs], rfl⟩, Nat.le_refl _, fun _ _ => rfl⟩
    · cases h

theorem allocAncilla_extends (qc : QCircuit) : CircuitExtends qc (allocAncilla qc).2 := by
  unfold allocAncilla
  cases h : qc.get_free_ancilla with
  | error e => exact add_ancilla_extends qc false
  | ok r => exact get_free_ancilla_extends qc r.1 r.2 (by rw [h])

theorem mcxChain_extends (rest : List Nat) : ∀ (qc : QCircuit) (c1 t : Nat) (qc' : QCircuit),
    mcxChain qc c1 rest t = .ok qc' → CircuitExtends qc qc' := by
  induction rest with
  | nil =>
    intro qc c1 t qc' h
    exact append_gate_extends _ _ _ _ h
  | cons c2 cs ih =>
    intro qc c1 t qc' h
    cases cs with
    | nil => exact append_gate_extends _ _ _ _ h
    | cons c3 cs' =>
      unfold mcxChain at h
      cases hg : ((allocAncilla qc).2).append_gate "ccx"
          [.idx c1, .idx c2, .idx (allocAncilla qc).1] with
      | error e => rw [hg] at h; cases h
      | ok qc2 =>
        rw [hg] at h
        refine circuitExtends_trans _ _ _ (allocAncilla_extends qc)
          (circuitExtends_trans _ _ _ (append_gate_extends _ _ _ _ hg) ?_)
        exact ih qc2 (allocAncilla qc).1 t qc' h

theorem mcx_extends (qc : QCircuit) (controls : List QRef) (target : QRef)
    (qc' : QCircuit) (h : qc.mcx controls target = .ok qc') : CircuitExtends qc qc' := by
  unfold QCircuit.mcx at h
  cases hr : resolveAll qc controls with
  | error e =>
    rw [hr] at h
    cases ht : qc.resolve target with
    | error e2 => rw [ht] at h; cases h
    | ok t => rw [ht] at h; cases h
  | ok cidxs =>
    rw [hr] at h
    cases ht : qc.resolve target with
    | error e2 =>
      rw [ht] at h
      cases cidxs with
      | nil => cases h
      | cons c1 rest => cases h
    | ok t =>
      rw [ht] at h
      cases cidxs with
      | nil => cases h
      | cons c1 rest => exact mcxChain_extends rest qc c1 t qc' h

theorem fredkin_extends (qc : QCircuit) (c a b : QRef) (qc' : QCircuit)
    (h : qc.fredkin c a b = .ok qc') : CircuitExtends qc qc' := by
  unfold QCircuit.fredkin at h
  split at h
  · cases h
  · rename_i qc1 h1
    split at h
    · cases h
    · rename_i qc2 h2
      exact circuitExtends_trans _ _ _ (append_gate_extends _ _ _ _ h1)
        (circuitExtends_trans _ _ _ (append_gate_extends _ _ _ _ h2)
          (append_gate_extends _ _ _ _ h))

theorem uncompute_extends (qc : QCircuit) (idxs : List Nat) (qc' : QCircuit)
    (h : qc.uncompute idxs = .ok qc') : CircuitExtends qc qc' := by
  unfold QCircuit.uncompute at h
  by_cases ha : idxs.all (fun i => isAncAt qc.slots i) = true
  · rw [if_pos ha] at h
    cases h
    refine ⟨⟨_, rfl⟩, by rw [length_releaseAll], ?_⟩
    intro j hj
    exact slotCoreAt_releaseAll _ _ _
  · rw [if_neg ha] at h
    cases h

theorem applyOp_extends (op : QOp) (qc qc' : QCircuit)
    (h : applyOp op qc = .ok qc') : CircuitExtends qc qc' := by
  cases op with
  | addQubit k =>
    simp only [applyOp] at h
    cases hq : qc.add_qubit k with
    | error e => rw [hq] at h; cases h
    | ok r =>
      rw [hq] at h
      cases h
      exact add_qubit_extends qc k r.1 r.2 (by rw [hq])
  | addAncilla b =>
    simp only [applyOp] at h
    cases h
    exact add_ancilla_extends qc b
  | gate kind ops =>
    simp only [applyOp] at h
    exact append_gate_extends qc kind ops qc' h
  | freeAncilla =>
    simp only [applyOp] at h
    cases hq : qc.get_free_ancilla with
    | error e => rw [hq] at h; cases h
    | ok r =>
      rw [hq] at h
      cases h
      exact get_free_ancilla_extends qc r.1 r.2 (by rw [hq])
  | rel idxs =>
    simp only [applyOp] at h
    cases h
    exact ⟨⟨[], by simp⟩, by simp [length_releaseAll], fun j _ => slotCoreAt_releaseAll _ _ _⟩
  | mcxOp cs t =>
    simp only [applyOp] at h
    exact mcx_extends qc cs t qc' h
  | fredkinOp c a b =>
    simp only [applyOp] at h
    exact fredkin_extends qc c a b qc' h
  | uncomputeOp idxs =>
    simp only [applyOp] at h
    exact uncompute_extends qc idxs qc' h

theorem applyOps_extends (ops : List QOp) : ∀ (qc qc' : QCircuit),
    applyOps ops qc = .ok qc' → CircuitExtends qc qc' := by
  induction ops with
  | nil =>
    intro qc qc' h
    cases h
    exact circuitExtends_refl qc
  | cons op rest ih =>
    intro qc qc' h
    unfold applyOps at h
    cases h1 : applyOp op qc with
    | error e => rw [h1] at h; cases h
    | ok qc1 =>
      rw [h1] at h
      exact circuitExtends_trans _ _ _ (applyOp_extends op qc qc1 h1) (ih qc1 qc' h)

theorem add_qubit_ok (qc : QCircuit) (k : Option String) (n : Nat) (qc' : QCircuit)
    (h : qc.add_qubit k = .ok (n, qc')) :
    n = qc.slots.length ∧
    qc' = QCircuit.mk qc.name
      (qc.slots ++
        [QubitSlot.mk qc.slots.length (k.getD (defaultKey qc.slots.length)) false false])
      qc.gates := by
  simp only [QCircuit.add_qubit] at h
  split at h
  · cases h
  · cases h
    exact ⟨rfl, rfl⟩

/-! ### Claim theorems -/

/-- C9: every interface operation only ever appends to the slot list and to
the gate log: whenever a sequence of operations succeeds, the previous gate
log is an initial segment of the new one (uncomputation appends copies of
earlier records rather than altering history), no slot is removed, and
every previously existing slot keeps its index, key, and ancilla flag —
releasing or claiming an ancilla only toggles its `is_free` flag. -/
theorem c9_append_only (ops : List QOp) (qc qc' : QCircuit)
    (h : applyOps ops qc = .ok qc') :
    (∃ gs, qc'.gates = qc.gates ++ gs) ∧
    qc.slots.length ≤ qc'.slots.length ∧
    (∀ j, j < qc.slots.length → slotCoreAt qc'.slots j = slotCoreAt qc.slots j) :=
  applyOps_extends ops qc qc' h

theorem c9_append_only_witness :
    applyOps c9wOps c9wStart = .ok c9wResult ∧
    ((∃ gs, c9wResult.gates = c9wStart.gates ++ gs) ∧
     c9wStart.slots.length ≤ c9wResult.slots.length ∧
     (∀ j, j < c9wStart.slots.length →
       slotCoreAt c9wResult.slots j = slotCoreAt c9wStart.slots j)) :=
  ⟨by decide, c9_append_only c9wOps c9wStart c9wResult (by decide)⟩

/-- C7: a primitive gate application whose resolved operand indices are not
pairwise distinct fails with the duplicate-operand error (the call produces
no circuit, so no record is appended); in particular, after registering two
qubits `a` and `b`, `toffoli(a, b, a)` — which uses `a` in two roles —
fails so. -/
theorem c7_duplicate_operand (qc : QCircuit) (kind : String) (ops : List QRef)
    (idxs : List Nat) (hres : resolveAll qc ops = .ok idxs) (hdup : ¬ idxs.Nodup) :
    qc.append_gate kind ops = .error "duplicate-operand" ∧
    c7Scenario = .error "duplicate-operand" := by
  constructor
  · cases hn : nodupb idxs with
    | true => exact absurd ((nodupb_iff idxs).mp hn) hdup
    | false => exact append_gate_dup qc kind ops idxs hres hn
  · decide

theorem c7_duplicate_operand_witness :
    resolveAll (QCircuit.init "qc" 2) [QRef.idx 0, QRef.idx 1, QRef.idx 0] = .ok [0, 1, 0] ∧
    ¬ ([0, 1, 0] : List Nat).Nodup ∧
    ((QCircuit.init "qc" 2).append_gate "ccx" [QRef.idx 0, QRef.idx 1, QRef.idx 0]
        = .error "duplicate-operand" ∧
      c7Scenario = .error "duplicate-operand") :=
  ⟨by decide, by decide,
    c7_duplicate_operand (QCircuit.init "qc" 2) "ccx"
      [QRef.idx 0, QRef.idx 1, QRef.idx 0] [0, 1, 0] (by decide) (by decide)⟩

/-- C8: `get_key_by_index` fails with an out-of-range error on every index
that is not a registered slot position, and on a registered index returns
exactly the key given at that slot's registration — the synthesized default
`q{index}` when none was given (keyless `add_qubit`, `add_ancilla`) — with
previously registered keys unaffected by later registrations. -/
theorem c8_get_key_by_index :
    (∀ (qc : QCircuit) (i : Nat), qc.slots.length ≤ i →
      qc.get_key_by_index i = .error ("out-of-range: " ++ natToStr i)) ∧
    (∀ (qc : QCircuit) (key : Option String) (n : Nat) (qc' : QCircuit),
      qc.add_qubit key = .ok (n, qc') →
      (qc'.get_key_by_index n = .ok (key.getD (defaultKey n)) ∧
       ∀ j, j < n → qc'.get_key_by_index j = qc.get_key_by_index j)) ∧
    (∀ (qc : QCircuit) (b : Bool),
      ((qc.add_ancilla b).2).get_key_by_index (qc.add_ancilla b).1
        = .ok (defaultKey (qc.add_ancilla b).1)) := by
  refine ⟨?_, ?_, ?_⟩
  · intro qc i hle
    unfold QCircuit.get_key_by_index
    rw [List.getElem?_eq_none hle]
  · intro qc key n qc' h
    obtain ⟨hn, hq⟩ := add_qubit_ok qc key n qc' h
    subst hn
    subst hq
    constructor
    · unfold QCircuit.get_key_by_index
      simp
    · intro j hj
      unfold QCircuit.get_key_by_index
      show (match (qc.slots ++ _)[j]? with
        | some sl => Except.ok sl.key
        | none => Except.error ("out-of-range: " ++ natToStr j)) = _
      rw [List.getElem?_append_left hj]
  · intro qc b
    unfold QCircuit.get_key_by_index QCircuit.add_ancilla
    simp

theorem c8_get_key_by_index_witness :
    ((QCircuit.init "qc" 2).slots.length ≤ 3 ∧
      (QCircuit.init "qc" 2).get_key_by_index 3 = .error ("out-of-range: " ++ natToStr 3)) ∧
    ((QCircuit.empty "qc").add_qubit (some "a")
        = .ok (0, QCircuit.mk "qc" [QubitSlot.mk 0 "a" false false] []) ∧
      (QCircuit.mk "qc" [QubitSlot.mk 0 "a" false false] []).get_key_by_index 0
        = .ok ((some "a").getD (defaultKey 0))) :=
  ⟨⟨by decide, c8_get_key_by_index.1 (QCircuit.init "qc" 2) 3 (by decide)⟩,
   ⟨by decide,
    (c8_get_key_by_index.2.1 (QCircuit.empty "qc") (some "a") 0
      (QCircuit.mk "qc" [QubitSlot.mk 0 "a" false false] []) (by decide)).1⟩⟩

theorem addQubits_spec (keys : List (Option String)) : ∀ (qc : QCircuit) (idxs : List Nat)
    (qc' : QCircuit), addQubits qc keys = .ok (idxs, qc') →
    qc'.slots.length = qc.slots.length + keys.length ∧
    idxs = List.range' qc.slots.length keys.length ∧
    (∀ j, j < qc.slots.length → qc'.slots[j]? = qc.slots[j]?) ∧
    (∀ j, qc.slots.length ≤ j → j < qc.slots.length + keys.length →
      ∃ sl, qc'.slots[j]? = some sl ∧ sl.index = j ∧ sl.is_ancilla = false) := by
  induction keys with
  | nil =>
    intro qc idxs qc' h
    simp only [addQubits] at h
    cases h
    exact ⟨by simp, by simp [List.range'], fun j _ => rfl,
      fun j h1 h2 => by simp at h2; omega⟩
  | cons k ks ih =>
    intro qc idxs qc' h
    simp only [addQubits] at h
    cases ha : qc.add_qubit k with
    | error e => simp [ha] at h
    | ok r =>
      obtain ⟨i, qc1⟩ := r
      simp only [ha] at h
      cases hb : addQubits qc1 ks with
      | error e => simp [hb] at h
      | ok r2 =>
        obtain ⟨is, qc2⟩ := r2
        simp only [hb] at h
        obtain ⟨hidx, hqc⟩ := Prod.mk.inj (Except.ok.inj h)
        subst idxs
        subst qc'
        obtain ⟨hi, hq1⟩ := add_qubit_ok qc k i qc1 ha
        obtain ⟨ih1, ih2, ih3, ih4⟩ := ih qc1 is qc2 hb
        have hlen1 : qc1.slots.length = qc.slots.length + 1 := by
          rw [hq1]
          simp
        simp only [List.length_cons]
        refine ⟨by omega, ?_, ?_, ?_⟩
        · have : List.range' qc.slots.length (ks.length + 1)
              = qc.slots.length :: List.range' (qc.slots.length + 1) ks.length :=
            List.range'_succ qc.slots.length ks.length 1
          rw [this, hi, ih2, hlen1]
        · intro j hj
          rw [ih3 j (by omega), hq1]
          exact List.getElem?_append_left hj
        · intro j h1 h2
          by_cases hje : j = qc.slots.length
          · subst hje
            refine ⟨QubitSlot.mk qc.slots.length (k.getD (defaultKey qc.slots.length))
              false false, ?_, rfl, rfl⟩
            rw [ih3 _ (by omega), hq1]
            simp
          · refine ih4 j (by omega) (by omega)

/-- C4: for every sequence of `add_qubit` calls on a fresh circuit that
succeeds, `num_qubits` equals the call count, the calls returned the
indices `0, 1, ..., n-1` in order, and the i-th call created a non-ancilla
slot stored at position `i` whose `index` field is `i` — indices are dense,
zero-based, and assigned in call order. -/
theorem c4_add_qubit_dense (nm : String) (keys : List (Option String)) (idxs : List Nat)
    (qc' : QCircuit) (h : addQubits (QCircuit.empty nm) keys = .ok (idxs, qc')) :
    qc'.num_qubits = keys.length ∧
    idxs = List.range keys.length ∧
    (∀ i, i < keys.length →
      ∃ sl, qc'.slots[i]? = some sl ∧ sl.index = i ∧ sl.is_ancilla = false) := by
  obtain ⟨h1, h2, _, h4⟩ := addQubits_spec keys (QCircuit.empty nm) idxs qc' h
  refine ⟨?_, ?_, ?_⟩
  · unfold QCircuit.num_qubits
    rw [h1]
    show 0 + keys.length = keys.length
    omega
  · rw [h2, List.range_eq_range']
    rfl
  · intro i hi
    refine h4 i (Nat.zero_le i) ?_
    show i < 0 + keys.length
    omega

theorem c4_add_qubit_dense_witness :
    addQubits (QCircuit.empty "qc") [some "a", none] = .ok ([0, 1], c4wResult) ∧
    (c4wResult.num_qubits = 2 ∧
     ([0, 1] : List Nat) = List.range 2 ∧
     (∀ i, i < 2 →
       ∃ sl, c4wResult.slots[i]? = some sl ∧ sl.index = i ∧ sl.is_ancilla = false)) := by
  have h : addQubits (QCircuit.empty "qc") [some "a", none] = .ok ([0, 1], c4wResult) := by
    decide
  exact ⟨h, c4_add_qubit_dense "qc" [some "a", none] [0, 1] c4wResult h⟩

theorem isFreeAncAt_congr (ss ss' : List QubitSlot) (j : Nat)
    (h : ss[j]? = ss'[j]?) : isFreeAncAt ss j = isFreeAncAt ss' j := by
  unfold isFreeAncAt
  rw [h]

theorem freePosAux_append_free (sl : QubitSlot) (hsl : (sl.is_ancilla && sl.is_free) = true) :
    ∀ (ss : List QubitSlot) (b : Nat),
    freePosAux (ss ++ [sl]) b = freePosAux ss b ++ [b + ss.length] := by
  intro ss
  induction ss with
  | nil =>
    intro b
    show freePosAux [sl] b = [] ++ [b + 0]
    rw [freePosAux_cons_free _ _ _ hsl]
    simp [freePosAux]
  | cons x rest ih =>
    intro b
    cases hf : x.is_ancilla && x.is_free with
    | true =>
      rw [List.cons_append, freePosAux_cons_free x _ b hf, freePosAux_cons_free x rest b hf,
        ih (b + 1)]
      simp
      omega
    | false =>
      rw [List.cons_append, freePosAux_cons_not_free x _ b hf,
        freePosAux_cons_not_free x rest b hf, ih (b + 1)]
      simp
      omega

theorem freePosAux_eq_nil (ss : List QubitSlot)
    (h : ∀ p, isFreeAncAt ss p = false) : freePosAux ss 0 = [] := by
  cases hfp : freePosAux ss 0 with
  | nil => rfl
  | cons q ps =>
    have hq := (freePos_head_least ss q ps hfp).1
    rw [h q] at hq
    cases hq

/-- C5 (amended): `get_free_ancilla()` scans slots in increasing index
order and returns the first holding a free ancilla, marking exactly that
slot in-use as a side effect; it fails with the no-free-ancilla error when
no free ancilla exists; and called immediately after `add_ancilla(is_free
= true)` on a circuit with no other free ancilla, it returns that
ancilla's index. (The claim's unconditional "immediately after" clause is
refuted by `c5_counterexample`: an older free ancilla wins the scan.) -/
theorem c5_get_free_ancilla (qc : QCircuit) :
    (∀ p, isFreeAncAt qc.slots p = true →
      (∀ q, q < p → isFreeAncAt qc.slots q = false) →
      qc.get_free_ancilla
        = .ok (p, QCircuit.mk qc.name (setFreeAt qc.slots p false) qc.gates)) ∧
    ((∀ p, isFreeAncAt qc.slots p = false) →
      qc.get_free_ancilla = .error "no-free-ancilla") ∧
    ((∀ p, isFreeAncAt qc.slots p = false) →
      ((qc.add_ancilla true).2).get_free_ancilla
        = .ok ((qc.add_ancilla true).1,
            QCircuit.mk qc.name (setFreeAt ((qc.add_ancilla true).2).slots
              (qc.add_ancilla true).1 false) qc.gates)) := by
  refine ⟨?_, ?_, ?_⟩
  · intro p hfree hleast
    cases hfp : freePosAux qc.slots 0 with
    | nil =>
      have : p ∈ freePosAux qc.slots 0 := (mem_freePosAux_zero qc.slots p).mpr hfree
      rw [hfp] at this
      cases this
    | cons q ps =>
      obtain ⟨hqf, hqleast⟩ := freePos_head_least qc.slots q ps hfp
      have hpq : p = q := by
        by_contra hne
        cases Nat.lt_or_ge p q with
        | inl hlt => rw [hqleast p hlt] at hfree; cases hfree
        | inr hge =>
          have : q < p := by omega
          rw [hleast q this] at hqf
          cases hqf
      subst hpq
      unfold QCircuit.get_free_ancilla
      rw [hfp]
  · intro hnone
    unfold QCircuit.get_free_ancilla
    rw [freePosAux_eq_nil qc.slots hnone]
  · intro hnone
    unfold QCircuit.get_free_ancilla
    show (match freePosAux (qc.slots ++ [QubitSlot.mk qc.slots.length
        (defaultKey qc.slots.length) true true]) 0 with
      | p :: _ => Except.ok (p, QCircuit.mk ((qc.add_ancilla true).2).name
          (setFreeAt ((qc.add_ancilla true).2).slots p false)
          ((qc.add_ancilla true).2).gates)
      | [] => Except.error "no-free-ancilla") = _
    rw [freePosAux_append_free _ (by simp) qc.slots 0, freePosAux_eq_nil qc.slots hnone,
      List.nil_append, Nat.zero_add]
    rfl

theorem c5_get_free_ancilla_witness :
    (isFreeAncAt c5wA.slots 0 = true ∧
      c5wA.get_free_ancilla
        = .ok (0, QCircuit.mk c5wA.name (setFreeAt c5wA.slots 0 false) c5wA.gates)) ∧
    ((∀ p, isFreeAncAt (QCircuit.empty "qc").slots p = false) ∧
      (QCircuit.empty "qc").get_free_ancilla = .error "no-free-ancilla") :=
  ⟨⟨by decide,
    (c5_get_free_ancilla c5wA).1 0 (by decide)
      (fun q hq => absurd hq (Nat.not_lt_zero q))⟩,
   ⟨fun _ => rfl,
    (c5_get_free_ancilla (QCircuit.empty "qc")).2.1 (fun _ => rfl)⟩⟩

/-- C5 counterexample: with a free ancilla at index 0 already present,
`add_ancilla(is_free=true)` returns index 1, yet the immediately following
`get_free_ancilla()` returns index 0, not 1 — so the claim's unconditional
"called immediately after `add_ancilla(is_free=true)` it returns that
ancilla's index" fails on this input. -/
theorem c5_counterexample :
    ((c5wA.add_ancilla true).1 = 1 ∧
      Except.map Prod.fst (((c5wA.add_ancilla true).2).get_free_ancilla) = .ok 0) ∧
    ¬ Except.map Prod.fst (((c5wA.add_ancilla true).2).get_free_ancilla) = .ok 1 := by
  refine ⟨⟨?_, ?_⟩, ?_⟩ <;> decide

/-- C1: for every circuit and set of registered ancilla indices,
`uncompute` collects in original order the gate records whose operand list
touches any of the indices, appends exactly that subsequence to the gate
log in reverse order with kind and operands unchanged, and marks every
given index free (slots outside the set are untouched); afterwards
`get_free_ancilla()` succeeds and can return one of them — its result is
either one of the uncomputed indices or an ancilla that was already free
before. If no prior gate touched the indices, nothing is appended and they
are simply freed. -/
theorem c1_uncompute (qc : QCircuit) (idxs : List Nat)
    (hanc : ∀ i ∈ idxs, isAncAt qc.slots i = true) :
    ∃ qc', qc.uncompute idxs = .ok qc' ∧
      qc'.gates = qc.gates ++ (qc.gates.filter (fun g => g.touches idxs)).reverse ∧
      (∀ i ∈ idxs, isFreeAncAt qc'.slots i = true) ∧
      (∀ j, j ∉ idxs → qc'.slots[j]? = qc.slots[j]?) ∧
      ((qc.gates.filter (fun g => g.touches idxs)) = [] → qc'.gates = qc.gates) ∧
      (idxs ≠ [] → ∃ r qc2, qc'.get_free_ancilla = .ok (r, qc2) ∧
        (r ∈ idxs ∨ isFreeAncAt qc.slots r = true)) := by
  have hall : idxs.all (fun i => isAncAt qc.slots i) = true :=
    List.all_eq_true.mpr hanc
  refine ⟨QCircuit.mk qc.name (releaseAll qc.slots idxs)
    (qc.gates ++ (qc.gates.filter (fun g => g.touches idxs)).reverse), ?_, rfl, ?_, ?_, ?_, ?_⟩
  · unfold QCircuit.uncompute
    rw [if_pos hall]
  · intro i hmem
    exact isFreeAncAt_releaseAll_mem idxs qc.slots i hmem (hanc i hmem)
      (lt_length_of_isAncAt qc.slots i (hanc i hmem))
  · intro j hj
    exact getElem?_releaseAll_not_mem idxs qc.slots j hj
  · intro hemp
    show qc.gates ++ (qc.gates.filter (fun g => g.touches idxs)).reverse = qc.gates
    rw [hemp]
    simp
  · intro hne
    cases idxs with
    | nil => exact absurd rfl hne
    | cons i0 rest =>
      have hifree : isFreeAncAt (releaseAll qc.slots (i0 :: rest)) i0 = true :=
        isFreeAncAt_releaseAll_mem _ qc.slots i0 (List.mem_cons_self i0 rest)
          (hanc i0 (List.mem_cons_self i0 rest))
          (lt_length_of_isAncAt qc.slots i0 (hanc i0 (List.mem_cons_self i0 rest)))
      cases hfp : freePosAux (releaseAll qc.slots (i0 :: rest)) 0 with
      | nil =>
        have : i0 ∈ freePosAux (releaseAll qc.slots (i0 :: rest)) 0 :=
          (mem_freePosAux_zero _ i0).mpr hifree
        rw [hfp] at this
        cases this
      | cons r ps =>
        refine ⟨r, QCircuit.mk qc.name
          (setFreeAt (releaseAll qc.slots (i0 :: rest)) r false)
          (qc.gates ++ (qc.gates.filter
            (fun (g : GateRecord) => g.touches (i0 :: rest))).reverse), ?_, ?_⟩
        · unfold QCircuit.get_free_ancilla
          show (match freePosAux (releaseAll qc.slots (i0 :: rest)) 0 with
            | p :: _ => Except.ok (p, QCircuit.mk qc.name
                (setFreeAt (releaseAll qc.slots (i0 :: rest)) p false)
                (qc.gates ++ (qc.gates.filter
                  (fun (g : GateRecord) => g.touches (i0 :: rest))).reverse))
            | [] => Except.error "no-free-ancilla") = _
          rw [hfp]
        · by_cases hmem : r ∈ i0 :: rest
          · exact Or.inl hmem
          · right
            have hrf := (freePos_head_least _ r ps hfp).1
            rw [isFreeAncAt_congr _ qc.slots r
              (getElem?_releaseAll_not_mem (i0 :: rest) qc.slots r hmem)] at hrf
            exact hrf

theorem c1_uncompute_witness :
    (∀ i ∈ [2, 3], isAncAt c1wCircuit.slots i = true) ∧
    (∃ qc', c1wCircuit.uncompute [2, 3] = .ok qc' ∧
      qc'.gates = c1wCircuit.gates
        ++ (c1wCircuit.gates.filter (fun g => g.touches [2, 3])).reverse ∧
      (∀ i ∈ [2, 3], isFreeAncAt qc'.slots i = true) ∧
      (∀ j, j ∉ [2, 3] → qc'.slots[j]? = c1wCircuit.slots[j]?) ∧
      ((c1wCircuit.gates.filter (fun g => g.touches [2, 3])) = [] →
        qc'.gates = c1wCircuit.gates) ∧
      (([2, 3] : List Nat) ≠ [] → ∃ r qc2, qc'.get_free_ancilla = .ok (r, qc2) ∧
        (r ∈ [2, 3] ∨ isFreeAncAt c1wCircuit.slots r = true))) :=
  ⟨by decide, c1_uncompute c1wCircuit [2, 3] (by decide)⟩

theorem strConcat_cons (a : String) (l : List String) :
    strConcat (a :: l) = a ++ strConcat l := rfl

theorem spaceJoin_cons (a : String) (l : List String) :
    spaceJoin (a :: l) = a ++ strConcat (l.map (fun s => " " ++ s)) := by
  induction l generalizing a with
  | nil =>
    show a = a ++ ""
    rw [String.append_empty]
  | cons b bs ih =>
    show a ++ " " ++ spaceJoin (b :: bs) = a ++ ((" " ++ b) ++ strConcat (bs.map (fun s => " " ++ s)))
    rw [ih b, String.append_assoc, String.append_assoc]

theorem gateLine_eq_spec (qc : QCircuit) (g : GateRecord) :
    gateLine qc g = "\t" ++ spaceJoin (g.kind :: g.operands.map (keyOfIndex qc)) ++ "\n" := by
  rw [spaceJoin_cons, List.map_map]
  unfold gateLine
  rfl

theorem export_qasm_eq_spec (qc : QCircuit) : qc.export_qasm = qasmSpecText qc := by
  unfold QCircuit.export_qasm qasmSpecText
  have hmap : qc.gates.map (fun g =>
      "\t" ++ spaceJoin (g.kind :: g.operands.map (keyOfIndex qc)) ++ "\n")
      = qc.gates.map (gateLine qc) :=
    List.map_congr_left (fun g _ => (gateLine_eq_spec qc g).symm)
  have hmm : List.map (fun s => " " ++ s) (List.map QubitSlot.key qc.slots)
      = List.map (fun sl => " " ++ sl.key) qc.slots := by
    rw [List.map_map]
    rfl
  have hg : ("gate " : String) = "gate" ++ " " := by decide
  rw [hmap, spaceJoin_cons, List.map_cons, strConcat_cons, hmm]
  simp only [String.append_assoc]
  rw [hg, String.append_assoc]

/-- C2: for a circuit with two keyless qubits after `X` on qubit 0 and `CX`
on qubits 0,1, `export("gate", "qasm")` returns the exact byte string of
the test; and in general the textual export matches, byte for byte, the
spec's format contract: the qubit keys in registration order (defaulting
to `q{index}` for keyless slots), one tab-indented lowercased gate line
per record, a closing brace and two trailing newlines. -/
theorem c2_export_qasm :
    exportScenario = .ok "gate qc q0 q1 \x7b\n\tx q0\n\tcx q0 q1\n\x7d\n\n" ∧
    (∀ qc : QCircuit, qc.export "gate" "qasm" = .ok (qasmSpecText qc)) := by
  constructor
  · decide
  · intro qc
    have he : qc.export "gate" "qasm" = .ok qc.export_qasm := by
      unfold QCircuit.export
      rfl
    rw [he, export_qasm_eq_spec]

theorem nodupb_pair (x y : Nat) (h : x ≠ y) : nodupb [x, y] = true := by
  simp [nodupb, memb, h]

theorem nodupb_triple (x y z : Nat) (h1 : x ≠ y) (h2 : x ≠ z) (h3 : y ≠ z) :
    nodupb [x, y, z] = true := by
  simp [nodupb, memb, h1, h2, h3]

/-- C6: `fredkin(control, a, b)` emits exactly the standard three-gate
decomposition `CX(b,a); CCX(control,a,b); CX(b,a)`, gate for gate, leaving
the slot list unchanged (no ancilla allocated); on every 3-qubit basis
state its gate sequence swaps the two swapped wires exactly when the
control wire is set; and on the test scenario (X on 0, X on 1, fredkin
0 1 2 from the all-zero state) the measured outcome is `"101"`. -/
theorem c6_fredkin (qc : QCircuit) (c a b : Nat)
    (hc : c < qc.num_qubits) (ha : a < qc.num_qubits) (hb : b < qc.num_qubits)
    (hab : a ≠ b) (hca : c ≠ a) (hcb : c ≠ b) :
    qc.fredkin (.idx c) (.idx a) (.idx b)
      = .ok (QCircuit.mk qc.name qc.slots (qc.gates
          ++ [GateRecord.mk "cx" [b, a], GateRecord.mk "ccx" [c, a, b],
              GateRecord.mk "cx" [b, a]])) ∧
    (∀ s ∈ basis3, runGates s fredkinGates012
      = if getBit s 0 then [getBit s 0, getBit s 2, getBit s 1] else s) ∧
    fredkinScenario.map (fun qcf => bitString (runGates [false, false, false] qcf.gates))
      = .ok "101" := by
  unfold QCircuit.num_qubits at hc ha hb
  refine ⟨?_, by decide, by decide⟩
  have h1 : qc.append_gate "cx" [QRef.idx b, QRef.idx a]
      = .ok (QCircuit.mk qc.name qc.slots (qc.gates ++ [GateRecord.mk "cx" [b, a]])) :=
    append_gate_ok qc "cx" _ [b, a] (resolveAll_idx qc [b, a] (by
      intro x hx
      cases hx with
      | head => exact hb
      | tail _ hx2 =>
        cases hx2 with
        | head => exact ha
        | tail _ hx3 => cases hx3))
      (nodupb_pair b a (fun he => hab he.symm))
  have h2 : (QCircuit.mk qc.name qc.slots (qc.gates ++ [GateRecord.mk "cx" [b, a]])).append_gate
      "ccx" [QRef.idx c, QRef.idx a, QRef.idx b]
      = .ok (QCircuit.mk qc.name qc.slots ((qc.gates ++ [GateRecord.mk "cx" [b, a]])
          ++ [GateRecord.mk "ccx" [c, a, b]])) :=
    append_gate_ok _ "ccx" _ [c, a, b] (resolveAll_idx _ [c, a, b] (by
      intro x hx
      cases hx with
      | head => exact hc
      | tail _ hx2 =>
        cases hx2 with
        | head => exact ha
        | tail _ hx3 =>
          cases hx3 with
          | head => exact hb
          | tail _ hx4 => cases hx4))
      (nodupb_triple c a b hca hcb hab)
  have h3 : (QCircuit.mk qc.name qc.slots ((qc.gates ++ [GateRecord.mk "cx" [b, a]])
        ++ [GateRecord.mk "ccx" [c, a, b]])).append_gate "cx" [QRef.idx b, QRef.idx a]
      = .ok (QCircuit.mk qc.name qc.slots (((qc.gates ++ [GateRecord.mk "cx" [b, a]])
          ++ [GateRecord.mk "ccx" [c, a, b]]) ++ [GateRecord.mk "cx" [b, a]])) :=
    append_gate_ok _ "cx" _ [b, a] (resolveAll_idx _ [b, a] (by
      intro x hx
      cases hx with
      | head => exact hb
      | tail _ hx2 =>
        cases hx2 with
        | head => exact ha
        | tail _ hx3 => cases hx3))
      (nodupb_pair b a (fun he => hab he.symm))
  unfold QCircuit.fredkin QCircuit.cx QCircuit.ccx
  rw [h1]
  show (match (QCircuit.mk qc.name qc.slots (qc.gates
      ++ [GateRecord.mk "cx" [b, a]])).append_gate "ccx" [QRef.idx c, QRef.idx a, QRef.idx b] with
    | Except.error e => Except.error e
    | Except.ok qc2 => qc2.append_gate "cx" [QRef.idx b, QRef.idx a]) = _
  rw [h2]
  show (QCircuit.mk qc.name qc.slots ((qc.gates ++ [GateRecord.mk "cx" [b, a]])
      ++ [GateRecord.mk "ccx" [c, a, b]])).append_gate "cx" [QRef.idx b, QRef.idx a] = _
  rw [h3]
  rw [List.append_assoc, List.append_assoc]
  rfl

theorem c6_fredkin_witness :
    ((0 : Nat) < (QCircuit.init "qc" 3).num_qubits ∧
     (1 : Nat) < (QCircuit.init "qc" 3).num_qubits ∧
     (2 : Nat) < (QCircuit.init "qc" 3).num_qubits) ∧
    ((QCircuit.init "qc" 3).fredkin (.idx 0) (.idx 1) (.idx 2)
      = .ok (QCircuit.mk "qc" (QCircuit.init "qc" 3).slots
          ([GateRecord.mk "cx" [2, 1], GateRecord.mk "ccx" [0, 1, 2],
            GateRecord.mk "cx" [2, 1]])) ∧
     (∀ s ∈ basis3, runGates s fredkinGates012
       = if getBit s 0 then [getBit s 0, getBit s 2, getBit s 1] else s) ∧
     fredkinScenario.map (fun qcf => bitString (runGates [false, false, false] qcf.gates))
       = .ok "101") := by
  have h := c6_fredkin (QCircuit.init "qc" 3) 0 1 2 (by decide) (by decide) (by decide)
    (by decide) (by decide) (by decide)
  exact ⟨⟨by decide, by decide, by decide⟩, by simpa using h⟩

theorem digitVal_digitChar (d : Nat) (h : d < 10) : digitVal (digitChar d) = d := by
  interval_cases d <;> rfl

theorem digitCountGo_irrel (f1 : Nat) : ∀ (n f2 : Nat), n < f1 → n < f2 →
    digitCountGo f1 n = digitCountGo f2 n := by
  induction f1 with
  | zero => intro n f2 h1 _; omega
  | succ f ih =>
    intro n f2 h1 h2
    cases f2 with
    | zero => omega
    | succ f2p =>
      unfold digitCountGo
      by_cases hn : n < 10
      · simp [hn]
      · simp only [if_neg hn]
        have hd : n / 10 < n := Nat.div_lt_self (by omega) (by omega)
        rw [ih (n / 10) f2p (by omega) (by omega)]

theorem digitCountGo_succ (f n : Nat) :
    digitCountGo (f + 1) n = if n < 10 then 1 else digitCountGo f (n / 10) + 1 := rfl

theorem digitCount_lt10 (n : Nat) (h : n < 10) : digitCount n = 1 := by
  unfold digitCount digitCountGo
  simp [h]

theorem digitCount_ge10 (n : Nat) (h : 10 ≤ n) :
    digitCount n = digitCount (n / 10) + 1 := by
  have hd : n / 10 < n := Nat.div_lt_self (by omega) (by omega)
  have e1 : digitCount n = digitCountGo n (n / 10) + 1 := by
    unfold digitCount
    rw [digitCountGo_succ, if_neg (by omega)]
  rw [e1, digitCountGo_irrel n (n / 10) (n / 10 + 1) (by omega) (by omega)]
  rfl

theorem parse_natToStrGo (fuel : Nat) : ∀ (n m : Nat) (acc : List Char), n < fuel →
    List.foldl (fun a c => a * 10 + digitVal c) m (natToStrGo fuel n acc)
      = List.foldl (fun a c => a * 10 + digitVal c) (m * 10 ^ digitCount n + n) acc := by
  induction fuel with
  | zero => intro n m acc h; omega
  | succ f ih =>
    intro n m acc h
    unfold natToStrGo
    by_cases hn : n < 10
    · simp only [if_pos hn]
      show List.foldl _ (m * 10 + digitVal (digitChar n)) acc = _
      rw [digitVal_digitChar n hn, digitCount_lt10 n hn, pow_one]
    · simp only [if_neg hn]
      have hd : n / 10 < n := Nat.div_lt_self (by omega) (by omega)
      rw [ih (n / 10) m _ (by omega)]
      show List.foldl _ ((m * 10 ^ digitCount (n / 10) + n / 10) * 10
        + digitVal (digitChar (n % 10))) acc = _
      rw [digitVal_digitChar (n % 10) (by omega)]
      have harith : (m * 10 ^ digitCount (n / 10) + n / 10) * 10 + n % 10
          = m * 10 ^ digitCount n + n := by
        rw [digitCount_ge10 n (by omega), pow_succ]
        have h2 : (m * 10 ^ digitCount (n / 10) + n / 10) * 10 + n % 10
            = m * 10 ^ digitCount (n / 10) * 10 + (n / 10 * 10 + n % 10) := by ring
        rw [h2, Nat.mul_assoc]
        congr 1
        omega
      rw [harith]

theorem natToStr_inj (a b : Nat) (h : natToStr a = natToStr b) : a = b := by
  have hdata : natToStrGo (a + 1) a [] = natToStrGo (b + 1) b [] := congrArg String.data h
  have ha := parse_natToStrGo (a + 1) a 0 [] (by omega)
  have hb := parse_natToStrGo (b + 1) b 0 [] (by omega)
  rw [hdata] at ha
  rw [ha] at hb
  simpa using hb

theorem defaultKey_inj (a b : Nat) (h : defaultKey a = defaultKey b) : a = b := by
  unfold defaultKey at h
  have hd : ("q" ++ natToStr a).data = ("q" ++ natToStr b).data := congrArg String.data h
  rw [String.data_append, String.data_append] at hd
  have hc := List.append_cancel_left hd
  exact natToStr_inj a b (congrArg String.mk hc)

theorem initSlots_length : ∀ (n base : Nat), (initSlots base n).length = n := by
  intro n
  induction n with
  | zero => intro base; rfl
  | succ k ih =>
    intro base
    show (initSlots base (k + 1)).length = k + 1
    unfold initSlots
    rw [List.length_cons, ih (base + 1)]

theorem initSlots_getElem? : ∀ (n base j : Nat), j < n →
    (initSlots base n)[j]? = some (QubitSlot.mk (base + j) (defaultKey (base + j)) false false) := by
  intro n
  induction n with
  | zero => intro base j hj; omega
  | succ k ih =>
    intro base j hj
    unfold initSlots
    cases j with
    | zero =>
      rw [List.getElem?_cons_zero]
      rfl
    | succ jp =>
      rw [List.getElem?_cons_succ, ih (base + 1) jp (by omega)]
      have : base + 1 + jp = base + (jp + 1) := by omega
      rw [this]

theorem findKeyIdx_initSlots : ∀ (n base i : Nat), base ≤ i → i < base + n →
    findKeyIdx (initSlots base n) (defaultKey i) = some (i - base) := by
  intro n
  induction n with
  | zero => intro base i h1 h2; omega
  | succ k ih =>
    intro base i h1 h2
    unfold initSlots findKeyIdx
    by_cases hib : i = base
    · subst hib
      rw [if_pos (beq_self_eq_true _)]
      have : i - i = 0 := by omega
      rw [this]
    · have hne : ((QubitSlot.mk base (defaultKey base) false false).key
          == defaultKey i) = false := by
        show (defaultKey base == defaultKey i) = false
        exact beq_eq_false_iff_ne.mpr (fun he => hib (defaultKey_inj base i he).symm)
      rw [if_neg (by simp [hne])]
      rw [ih (base + 1) i (by omega) (by omega)]
      show some (i - (base + 1) + 1) = some (i - base)
      congr 1
      omega

/-- C10: `QCircuit(n)` pre-registers `n` non-ancilla qubit slots with
indices `0 .. n-1` whose keys are the synthesized defaults
`"q0" .. "q{n-1}"`, applies no gate, and each default key is immediately
resolvable to its slot's index in gate-application calls. -/
theorem c10_init (name : String) (n i : Nat) (hi : i < n) :
    (QCircuit.init name n).num_qubits = n ∧
    (QCircuit.init name n).gates = [] ∧
    (QCircuit.init name n).slots[i]? = some (QubitSlot.mk i (defaultKey i) false false) ∧
    (QCircuit.init name n).resolve (.name (defaultKey i)) = .ok i := by
  refine ⟨initSlots_length n 0, rfl, ?_, ?_⟩
  · have := initSlots_getElem? n 0 i hi
    rw [Nat.zero_add] at this
    exact this
  · unfold QCircuit.resolve
    show (match findKeyIdx (initSlots 0 n) (defaultKey i) with
      | some j => Except.ok j
      | none => Except.error ("unknown-reference: " ++ defaultKey i)) = _
    rw [findKeyIdx_initSlots n 0 i (Nat.zero_le i) (by omega)]
    show Except.ok (i - 0) = Except.ok i
    rw [Nat.sub_zero]

theorem c10_init_witness :
    (2 < 4 ∧ defaultKey 2 = "q2") ∧
    ((QCircuit.init "qc" 4).num_qubits = 4 ∧
     (QCircuit.init "qc" 4).gates = [] ∧
     (QCircuit.init "qc" 4).slots[2]? = some (QubitSlot.mk 2 (defaultKey 2) false false) ∧
     (QCircuit.init "qc" 4).resolve (.name (defaultKey 2)) = .ok 2) :=
  ⟨⟨by decide, by decide⟩, c10_init "qc" 4 2 (by decide)⟩

theorem allocAncilla_free (qc : QCircuit) (p : Nat) (ps : List Nat)
    (hfp : freePosAux qc.slots 0 = p :: ps) :
    allocAncilla qc = (p, QCircuit.mk qc.name (setFreeAt qc.slots p false) qc.gates) := by
  unfold allocAncilla QCircuit.get_free_ancilla
  rw [hfp]

theorem allocAncilla_fresh (qc : QCircuit) (hfp : freePosAux qc.slots 0 = []) :
    allocAncilla qc = (qc.slots.length, QCircuit.mk qc.name
      (qc.slots ++ [QubitSlot.mk qc.slots.length (defaultKey qc.slots.length) true false])
      qc.gates) := by
  unfold allocAncilla QCircuit.get_free_ancilla QCircuit.add_ancilla
  rw [hfp]

theorem isFreeAncAt_setFreeAt_false_imp (ss : List QubitSlot) (p j : Nat)
    (h : isFreeAncAt (setFreeAt ss p false) j = true) : isFreeAncAt ss j = true := by
  by_cases hpj : p = j
  · subst hpj
    cases hs : ss[p]? with
    | none => rw [setFreeAt_oob ss p false hs] at h; exact h
    | some sl =>
      unfold isFreeAncAt at h
      rw [getElem?_setFreeAt_self ss p false sl hs] at h
      simp at h
  · rw [isFreeAncAt_congr _ ss j (getElem?_setFreeAt_ne ss p false j hpj)] at h
    exact h

theorem isFreeAncAt_setFreeAt_self_false (ss : List QubitSlot) (p : Nat) :
    isFreeAncAt (setFreeAt ss p false) p = false := by
  cases hs : ss[p]? with
  | none =>
    rw [setFreeAt_oob ss p false hs]
    unfold isFreeAncAt
    rw [hs]
  | some sl =>
    unfold isFreeAncAt
    rw [getElem?_setFreeAt_self ss p false sl hs]
    simp

theorem isFreeAncAt_append_not_free_imp (ss : List QubitSlot) (sl : QubitSlot) (j : Nat)
    (hsl : sl.is_free = false) (h : isFreeAncAt (ss ++ [sl]) j = true) :
    isFreeAncAt ss j = true := by
  rcases Nat.lt_trichotomy j ss.length with hlt | heq | hgt
  · rw [isFreeAncAt_append_left ss sl j hlt] at h
    exact h
  · subst heq
    rw [isFreeAncAt_append_self ss sl, hsl] at h
    simp at h
  · unfold isFreeAncAt at h
    rw [List.getElem?_eq_none (by simp; omega)] at h
    cases h

theorem isAncAt_append_self (ss : List QubitSlot) (sl : QubitSlot) :
    isAncAt (ss ++ [sl]) ss.length = sl.is_ancilla := by
  unfold isAncAt
  simp

theorem isAncAt_of_isFreeAncAt (ss : List QubitSlot) (j : Nat)
    (h : isFreeAncAt ss j = true) : isAncAt ss j = true := by
  unfold isFreeAncAt at h
  unfold isAncAt
  cases hs : ss[j]? with
  | none => rw [hs] at h; exact h
  | some sl =>
    rw [hs] at h
    exact (Bool.and_eq_true _ _).mp h |>.1

theorem mcxChain_spec : ∀ (cs : List Nat) (qc : QCircuit) (c1 c2 t : Nat),
    c1 < qc.slots.length → c2 < qc.slots.length → t < qc.slots.length →
    (∀ x ∈ cs, x < qc.slots.length) →
    c1 ≠ c2 → c1 ≠ t → c2 ≠ t →
    c1 ∉ cs → c2 ∉ cs → t ∉ cs → cs.Nodup →
    isFreeAncAt qc.slots c1 = false → isFreeAncAt qc.slots c2 = false →
    isFreeAncAt qc.slots t = false →
    (∀ x ∈ cs, isFreeAncAt qc.slots x = false) →
    ∃ qc', mcxChain qc c1 (c2 :: cs) t = .ok qc' ∧
      qc'.gates = qc.gates
        ++ chainGates c1 c2 cs
            (allocs (freePosAux qc.slots 0) qc.slots.length cs.length) t ∧
      qc'.slots.length = qc.slots.length
        + (cs.length - (freePosAux qc.slots 0).length) ∧
      (∀ j, j < qc.slots.length → slotCoreAt qc'.slots j = slotCoreAt qc.slots j) ∧
      (∀ j, isFreeAncAt qc'.slots j = true → isFreeAncAt qc.slots j = true) ∧
      (∀ a ∈ allocs (freePosAux qc.slots 0) qc.slots.length cs.length,
        isAncAt qc'.slots a = true ∧ isFreeAncAt qc'.slots a = false) := by
  intro cs
  induction cs with
  | nil =>
    intro qc c1 c2 t hc1 hc2 ht _ h12 h1t h2t _ _ _ _ _ _ _ _
    have hap := append_gate_ok qc "ccx" [QRef.idx c1, QRef.idx c2, QRef.idx t] [c1, c2, t]
      (resolveAll_idx qc [c1, c2, t] (by
        intro x hx
        cases hx with
        | head => exact hc1
        | tail _ hx2 =>
          cases hx2 with
          | head => exact hc2
          | tail _ hx3 =>
            cases hx3 with
            | head => exact ht
            | tail _ hx4 => cases hx4))
      (nodupb_triple c1 c2 t h12 h1t h2t)
    refine ⟨_, hap, rfl, ?_, fun _ _ => rfl, fun _ h => h, fun a ha => by cases ha⟩
    show qc.slots.length = qc.slots.length + (0 - (freePosAux qc.slots 0).length)
    omega
  | cons c3 cs' ih =>
    intro qc c1 c2 t hc1 hc2 ht hcs h12 h1t h2t h1m h2m htm hnd hf1 hf2 hft hfs
    have hc3 : c3 < qc.slots.length := hcs c3 (List.mem_cons_self _ _)
    have hcs' : ∀ x ∈ cs', x < qc.slots.length :=
      fun x hx => hcs x (List.mem_cons_of_mem _ hx)
    have hf3 : isFreeAncAt qc.slots c3 = false := hfs c3 (List.mem_cons_self _ _)
    have hfs' : ∀ x ∈ cs', isFreeAncAt qc.slots x = false :=
      fun x hx => hfs x (List.mem_cons_of_mem _ hx)
    have h13 : c1 ≠ c3 := fun he => h1m (by rw [he]; exact List.mem_cons_self _ _)
    have h23 : c2 ≠ c3 := fun he => h2m (by rw [he]; exact List.mem_cons_self _ _)
    have ht3 : t ≠ c3 := fun he => htm (by rw [he]; exact List.mem_cons_self _ _)
    have h1m' : c1 ∉ cs' := fun hx => h1m (List.mem_cons_of_mem _ hx)
    have h2m' : c2 ∉ cs' := fun hx => h2m (List.mem_cons_of_mem _ hx)
    have htm' : t ∉ cs' := fun hx => htm (List.mem_cons_of_mem _ hx)
    have h3m' : c3 ∉ cs' := (List.nodup_cons.mp hnd).1
    have hnd' : cs'.Nodup := (List.nodup_cons.mp hnd).2
    cases hfp : freePosAux qc.slots 0 with
    | cons p ps =>
      have hpfree : isFreeAncAt qc.slots p = true :=
        (freePos_head_least qc.slots p ps hfp).1
      have hplen : p < qc.slots.length := lt_length_of_isFreeAncAt _ _ hpfree
      have hpanc : isAncAt qc.slots p = true := isAncAt_of_isFreeAncAt _ _ hpfree
      have hpne : ∀ y, isFreeAncAt qc.slots y = false → p ≠ y :=
        fun y hy he => by rw [he, hy] at hpfree; cases hpfree
      have fpM : freePosAux (setFreeAt qc.slots p false) 0 = ps := by
        have h0 := freePosAux_setFreeAt_head qc.slots 0 p ps hfp
        rw [Nat.sub_zero] at h0
        exact h0
      have lenM : (setFreeAt qc.slots p false).length = qc.slots.length :=
        length_setFreeAt qc.slots p false
      have freeM_ne : ∀ j, p ≠ j →
          isFreeAncAt (setFreeAt qc.slots p false) j = isFreeAncAt qc.slots j :=
        fun j hj => isFreeAncAt_congr _ _ j (getElem?_setFreeAt_ne qc.slots p false j hj)
      have hap := append_gate_ok
        (QCircuit.mk qc.name (setFreeAt qc.slots p false) qc.gates) "ccx"
        [QRef.idx c1, QRef.idx c2, QRef.idx p] [c1, c2, p]
        (resolveAll_idx _ [c1, c2, p] (by
          intro x hx
          show x < (setFreeAt qc.slots p false).length
          rw [lenM]
          cases hx with
          | head => exact hc1
          | tail _ hx2 =>
            cases hx2 with
            | head => exact hc2
            | tail _ hx3 =>
              cases hx3 with
              | head => exact hplen
              | tail _ hx4 => cases hx4))
        (nodupb_triple c1 c2 p h12 (fun he => hpne c1 hf1 he.symm)
          (fun he => hpne c2 hf2 he.symm))
      obtain ⟨qcf, hrun, hg, hlen, hcore, hfree, hancs⟩ :=
        ih (QCircuit.mk qc.name (setFreeAt qc.slots p false)
            (qc.gates ++ [GateRecord.mk "ccx" [c1, c2, p]])) p c3 t
          (by show p < (setFreeAt qc.slots p false).length; rw [lenM]; exact hplen)
          (by show c3 < (setFreeAt qc.slots p false).length; rw [lenM]; exact hc3)
          (by show t < (setFreeAt qc.slots p false).length; rw [lenM]; exact ht)
          (by
            intro x hx
            show x < (setFreeAt qc.slots p false).length
            rw [lenM]
            exact hcs' x hx)
          (hpne c3 hf3) (hpne t hft) (fun he => ht3 he.symm)
          (fun hx => hpne p (hfs' p hx) rfl)
          h3m' htm' hnd'
          (by
            show isFreeAncAt (setFreeAt qc.slots p false) p = false
            exact isFreeAncAt_setFreeAt_self_false qc.slots p)
          (by
            show isFreeAncAt (setFreeAt qc.slots p false) c3 = false
            rw [freeM_ne c3 (hpne c3 hf3)]
            exact hf3)
          (by
            show isFreeAncAt (setFreeAt qc.slots p false) t = false
            rw [freeM_ne t (hpne t hft)]
            exact hft)
          (by
            intro x hx
            show isFreeAncAt (setFreeAt qc.slots p false) x = false
            rw [freeM_ne x (hpne x (hfs' x hx))]
            exact hfs' x hx)
      have hg' : qcf.gates = (qc.gates ++ [GateRecord.mk "ccx" [c1, c2, p]])
          ++ chainGates p c3 cs'
              (allocs (freePosAux (setFreeAt qc.slots p false) 0)
                (setFreeAt qc.slots p false).length cs'.length) t := hg
      have hlen' : qcf.slots.length = (setFreeAt qc.slots p false).length
          + (cs'.length - (freePosAux (setFreeAt qc.slots p false) 0).length) := hlen
      have hcore' : ∀ j, j < (setFreeAt qc.slots p false).length →
          slotCoreAt qcf.slots j = slotCoreAt (setFreeAt qc.slots p false) j := hcore
      have hfree' : ∀ j, isFreeAncAt qcf.slots j = true →
          isFreeAncAt (setFreeAt qc.slots p false) j = true := hfree
      have hancs' : ∀ a ∈ allocs (freePosAux (setFreeAt qc.slots p false) 0)
          (setFreeAt qc.slots p false).length cs'.length,
          isAncAt qcf.slots a = true ∧ isFreeAncAt qcf.slots a = false := hancs
      rw [fpM, lenM] at hg' hlen' hancs'
      have hstep : mcxChain qc c1 (c2 :: c3 :: cs') t = .ok qcf := by
        show (match ((allocAncilla qc).2).append_gate "ccx"
            [QRef.idx c1, QRef.idx c2, QRef.idx (allocAncilla qc).1] with
          | Except.error e => Except.error e
          | Except.ok q => mcxChain q (allocAncilla qc).1 (c3 :: cs') t) = Except.ok qcf
        rw [allocAncilla_free qc p ps hfp]
        show (match (QCircuit.mk qc.name (setFreeAt qc.slots p false)
            qc.gates).append_gate "ccx" [QRef.idx c1, QRef.idx c2, QRef.idx p] with
          | Except.error e => Except.error e
          | Except.ok q => mcxChain q p (c3 :: cs') t) = Except.ok qcf
        rw [hap]
        exact hrun
      refine ⟨qcf, hstep, ?_, ?_, ?_, ?_, ?_⟩
      · simp only [List.length_cons]
        show qcf.gates = qc.gates ++ chainGates c1 c2 (c3 :: cs')
          (allocs (p :: ps) qc.slots.length (cs'.length + 1)) t
        rw [hg', List.append_assoc]
        rfl
      · simp only [List.length_cons]
        omega
      · intro j hj
        rw [hcore' j (by rw [lenM]; exact hj), slotCoreAt_setFreeAt]
      · intro j hj
        exact isFreeAncAt_setFreeAt_false_imp qc.slots p j (hfree' j hj)
      · intro a ha
        simp only [List.length_cons] at ha
        have ha2 : a ∈ p :: allocs ps qc.slots.length cs'.length := ha
        cases ha2 with
        | head =>
          constructor
          · rw [isAncAt_congr qcf.slots (setFreeAt qc.slots p false) p
              (by
                have hc := hcore' p (by rw [lenM]; exact hplen)
                unfold slotCoreAt at hc
                exact hc)]
            rw [isAncAt_congr (setFreeAt qc.slots p false) qc.slots p
              (slotCoreAt_setFreeAt qc.slots p false p)]
            exact hpanc
          · cases hb : isFreeAncAt qcf.slots p with
            | false => rfl
            | true =>
              have := hfree' p hb
              rw [isFreeAncAt_setFreeAt_self_false qc.slots p] at this
              cases this
        | tail _ ha3 => exact hancs' a ha3
    | nil =>
      have fpA : freePosAux (qc.slots ++ [QubitSlot.mk qc.slots.length
          (defaultKey qc.slots.length) true false]) 0 = [] := by
        rw [freePosAux_append_not_free _ rfl qc.slots 0, hfp]
      have lenA : (qc.slots ++ [QubitSlot.mk qc.slots.length
          (defaultKey qc.slots.length) true false]).length = qc.slots.length + 1 := by
        simp
      have freeA : ∀ j, j < qc.slots.length →
          isFreeAncAt (qc.slots ++ [QubitSlot.mk qc.slots.length
            (defaultKey qc.slots.length) true false]) j = isFreeAncAt qc.slots j :=
        fun j hj => isFreeAncAt_append_left qc.slots _ j hj
      have freeA_self : isFreeAncAt (qc.slots ++ [QubitSlot.mk qc.slots.length
          (defaultKey qc.slots.length) true false]) qc.slots.length = false := by
        rw [isFreeAncAt_append_self]
        rfl
      have hap := append_gate_ok
        (QCircuit.mk qc.name (qc.slots ++ [QubitSlot.mk qc.slots.length
          (defaultKey qc.slots.length) true false]) qc.gates) "ccx"
        [QRef.idx c1, QRef.idx c2, QRef.idx qc.slots.length] [c1, c2, qc.slots.length]
        (resolveAll_idx _ [c1, c2, qc.slots.length] (by
          intro x hx
          show x < (qc.slots ++ [QubitSlot.mk qc.slots.length
            (defaultKey qc.slots.length) true false]).length
          rw [lenA]
          cases hx with
          | head => omega
          | tail _ hx2 =>
            cases hx2 with
            | head => omega
            | tail _ hx3 =>
              cases hx3 with
              | head => omega
              | tail _ hx4 => cases hx4))
        (nodupb_triple c1 c2 qc.slots.length h12 (by omega) (by omega))
      obtain ⟨qcf, hrun, hg, hlen, hcore, hfree, hancs⟩ :=
        ih (QCircuit.mk qc.name (qc.slots ++ [QubitSlot.mk qc.slots.length
            (defaultKey qc.slots.length) true false])
            (qc.gates ++ [GateRecord.mk "ccx" [c1, c2, qc.slots.length]]))
          qc.slots.length c3 t
          (by
            show qc.slots.length < (qc.slots ++ [QubitSlot.mk qc.slots.length
              (defaultKey qc.slots.length) true false]).length
            rw [lenA]
            omega)
          (by
            show c3 < (qc.slots ++ [QubitSlot.mk qc.slots.length
              (defaultKey qc.slots.length) true false]).length
            rw [lenA]
            omega)
          (by
            show t < (qc.slots ++ [QubitSlot.mk qc.slots.length
              (defaultKey qc.slots.length) true false]).length
            rw [lenA]
            omega)
          (by
            intro x hx
            show x < (qc.slots ++ [QubitSlot.mk qc.slots.length
              (defaultKey qc.slots.length) true false]).length
            rw [lenA]
            have := hcs' x hx
            omega)
          (by have := hc3; omega) (by have := ht; omega) (fun he => ht3 he.symm)
          (fun hx => by have := hcs' _ hx; omega)
          h3m' htm' hnd'
          freeA_self
          (by rw [freeA c3 hc3]; exact hf3)
          (by rw [freeA t ht]; exact hft)
          (fun x hx => by rw [freeA x (hcs' x hx)]; exact hfs' x hx)
      have hg' : qcf.gates = (qc.gates ++ [GateRecord.mk "ccx" [c1, c2, qc.slots.length]])
          ++ chainGates qc.slots.length c3 cs'
              (allocs (freePosAux (qc.slots ++ [QubitSlot.mk qc.slots.length
                  (defaultKey qc.slots.length) true false]) 0)
                (qc.slots ++ [QubitSlot.mk qc.slots.length
                  (defaultKey qc.slots.length) true false]).length cs'.length) t := hg
      have hlen' : qcf.slots.length = (qc.slots ++ [QubitSlot.mk qc.slots.length
          (defaultKey qc.slots.length) true false]).length
          + (cs'.length - (freePosAux (qc.slots ++ [QubitSlot.mk qc.slots.length
              (defaultKey qc.slots.length) true false]) 0).length) := hlen
      have hcore' : ∀ j, j < (qc.slots ++ [QubitSlot.mk qc.slots.length
          (defaultKey qc.slots.length) true false]).length →
          slotCoreAt qcf.slots j = slotCoreAt (qc.slots ++ [QubitSlot.mk qc.slots.length
            (defaultKey qc.slots.length) true false]) j := hcore
      have hfree' : ∀ j, isFreeAncAt qcf.slots j = true →
          isFreeAncAt (qc.slots ++ [QubitSlot.mk qc.slots.length
            (defaultKey qc.slots.length) true false]) j = true := hfree
      have hancs' : ∀ a ∈ allocs (freePosAux (qc.slots ++ [QubitSlot.mk qc.slots.length
          (defaultKey qc.slots.length) true false]) 0)
          (qc.slots ++ [QubitSlot.mk qc.slots.length
            (defaultKey qc.slots.length) true false]).length cs'.length,
          isAncAt qcf.slots a = true ∧ isFreeAncAt qcf.slots a = false := hancs
      rw [fpA, lenA] at hg' hlen' hancs'
      simp only [List.length_nil] at hlen'
      have hstep : mcxChain qc c1 (c2 :: c3 :: cs') t = .ok qcf := by
        show (match ((allocAncilla qc).2).append_gate "ccx"
            [QRef.idx c1, QRef.idx c2, QRef.idx (allocAncilla qc).1] with
          | Except.error e => Except.error e
          | Except.ok q => mcxChain q (allocAncilla qc).1 (c3 :: cs') t) = Except.ok qcf
        rw [allocAncilla_fresh qc hfp]
        show (match (QCircuit.mk qc.name (qc.slots ++ [QubitSlot.mk qc.slots.length
            (defaultKey qc.slots.length) true false]) qc.gates).append_gate "ccx"
            [QRef.idx c1, QRef.idx c2, QRef.idx qc.slots.length] with
          | Except.error e => Except.error e
          | Except.ok q => mcxChain q qc.slots.length (c3 :: cs') t) = Except.ok qcf
        rw [hap]
        exact hrun
      refine ⟨qcf, hstep, ?_, ?_, ?_, ?_, ?_⟩
      · simp only [List.length_cons]
        show qcf.gates = qc.gates ++ chainGates c1 c2 (c3 :: cs')
          (allocs [] qc.slots.length (cs'.length + 1)) t
        rw [hg', List.append_assoc]
        rfl
      · simp only [List.length_cons]
        simp only [List.length_nil]
        omega
      · intro j hj
        rw [hcore' j (by rw [lenA]; omega), slotCoreAt_append_left _ _ j hj]
      · intro j hj
        exact isFreeAncAt_append_not_free_imp qc.slots _ j rfl (hfree' j hj)
      · intro a ha
        simp only [List.length_cons] at ha
        have ha2 : a ∈ qc.slots.length
            :: allocs [] (qc.slots.length + 1) cs'.length := ha
        cases ha2 with
        | head =>
          constructor
          · rw [isAncAt_congr qcf.slots (qc.slots ++ [QubitSlot.mk qc.slots.length
              (defaultKey qc.slots.length) true false]) qc.slots.length
              (by
                have hc := hcore' qc.slots.length (by rw [lenA]; omega)
                unfold slotCoreAt at hc
                exact hc)]
            rw [isAncAt_append_self]
          · cases hb : isFreeAncAt qcf.slots qc.slots.length with
            | false => rfl
            | true =>
              have h2 := hfree' qc.slots.length hb
              rw [freeA_self] at h2
              cases h2
        | tail _ ha3 => exact hancs' a ha3

theorem mcxGatesSpec_cons2 (c1 c2 : Nat) (cs : List Nat) (t : Nat) (ancs : List Nat) :
    mcxGatesSpec (c1 :: c2 :: cs) t ancs = chainGates c1 c2 cs ancs t := by
  cases cs <;> rfl

/-- C3: `mcx(controls, target)` on resolved, pairwise-distinct indices
emits a single CX record for one control; a single CCX for two; and for
more a left-to-right chain of CCX gates that pairwise-ANDs the controls
into ancillas and applies a final CCX into the real target. Every ancilla
needed is obtained by trying `get_free_ancilla()` first — the free-ancilla
scan list is consumed in order — and only then by registering a fresh
in-use ancilla at the next index (`allocs` captures exactly this policy);
the consumed ancillas stay flagged as in-use ancillas in the result (mcx
releases nothing), no slot becomes free, and every pre-existing slot keeps
its index, key and ancilla flag. -/
theorem c3_mcx (qc : QCircuit) (controls : List Nat) (t : Nat)
    (hne : controls ≠ [])
    (hv : ∀ x ∈ controls ++ [t], x < qc.num_qubits)
    (hnd : (controls ++ [t]).Nodup)
    (hnf : ∀ x ∈ controls ++ [t], isFreeAncAt qc.slots x = false) :
    ∃ qc', qc.mcx (controls.map QRef.idx) (QRef.idx t) = .ok qc' ∧
      qc'.gates = qc.gates ++ mcxGatesSpec controls t
        (allocs (freePosAux qc.slots 0) qc.num_qubits (controls.length - 2)) ∧
      qc'.num_qubits = qc.num_qubits
        + ((controls.length - 2) - (freePosAux qc.slots 0).length) ∧
      (∀ j, j < qc.num_qubits → slotCoreAt qc'.slots j = slotCoreAt qc.slots j) ∧
      (∀ j, isFreeAncAt qc'.slots j = true → isFreeAncAt qc.slots j = true) ∧
      (∀ a ∈ allocs (freePosAux qc.slots 0) qc.num_qubits (controls.length - 2),
        isAncAt qc'.slots a = true ∧ isFreeAncAt qc'.slots a = false) := by
  simp only [QCircuit.num_qubits] at hv ⊢
  have hresolve : resolveAll qc (controls.map QRef.idx) = .ok controls :=
    resolveAll_idx qc controls (fun x hx => hv x (List.mem_append_left _ hx))
  have ht : t < qc.slots.length :=
    hv t (List.mem_append_right _ (List.mem_cons_self _ _))
  cases controls with
  | nil => exact absurd rfl hne
  | cons c1 rest =>
    have hstep : qc.mcx ((c1 :: rest).map QRef.idx) (QRef.idx t)
        = mcxChain qc c1 rest t := by
      unfold QCircuit.mcx
      rw [hresolve, resolve_idx qc t ht]
    cases rest with
    | nil =>
      have hc1 : c1 < qc.slots.length :=
        hv c1 (List.mem_append_left _ (List.mem_cons_self _ _))
      have h1t : c1 ≠ t := by
        have h1nm := (List.nodup_cons.mp hnd).1
        intro he
        exact h1nm (by rw [he]; exact List.mem_cons_self t [])
      have hap := append_gate_ok qc "cx" [QRef.idx c1, QRef.idx t] [c1, t]
        (resolveAll_idx qc [c1, t] (by
          intro x hx
          cases hx with
          | head => exact hc1
          | tail _ hx2 =>
            cases hx2 with
            | head => exact ht
            | tail _ hx3 => cases hx3))
        (nodupb_pair c1 t h1t)
      refine ⟨QCircuit.mk qc.name qc.slots (qc.gates ++ [GateRecord.mk "cx" [c1, t]]),
        by rw [hstep]; exact hap, rfl, ?_, fun _ _ => rfl, fun _ h => h,
        fun a ha => by cases ha⟩
      show qc.slots.length = qc.slots.length
        + ((1 - 2) - (freePosAux qc.slots 0).length)
      omega
    | cons c2 cs =>
      have hv' : ∀ x ∈ c1 :: c2 :: (cs ++ [t]), x < qc.slots.length := hv
      have hnd' : (c1 :: c2 :: (cs ++ [t])).Nodup := hnd
      have hnf' : ∀ x ∈ c1 :: c2 :: (cs ++ [t]), isFreeAncAt qc.slots x = false := hnf
      have hc1 : c1 < qc.slots.length := hv' c1 (List.mem_cons_self _ _)
      have hc2 : c2 < qc.slots.length :=
        hv' c2 (List.mem_cons_of_mem _ (List.mem_cons_self _ _))
      have hcs : ∀ x ∈ cs, x < qc.slots.length :=
        fun x hx => hv' x (List.mem_cons_of_mem _ (List.mem_cons_of_mem _
          (List.mem_append_left _ hx)))
      obtain ⟨h1nm, hnd2⟩ := List.nodup_cons.mp hnd'
      obtain ⟨h2nm, hnd3⟩ := List.nodup_cons.mp hnd2
      obtain ⟨hndcs, _, hdisj⟩ := List.nodup_append.mp hnd3
      have h12 : c1 ≠ c2 := fun he => h1nm (by rw [he]; exact List.mem_cons_self _ _)
      have h1t : c1 ≠ t := fun he => h1nm (List.mem_cons_of_mem _
        (List.mem_append_right _ (by rw [he]; exact List.mem_cons_self t [])))
      have h2t : c2 ≠ t := fun he => h2nm
        (List.mem_append_right _ (by rw [he]; exact List.mem_cons_self t []))
      have h1cs : c1 ∉ cs := fun hx => h1nm (List.mem_cons_of_mem _
        (List.mem_append_left _ hx))
      have h2cs : c2 ∉ cs := fun hx => h2nm (List.mem_append_left _ hx)
      have htcs : t ∉ cs := fun hx => hdisj hx (List.mem_cons_self t [])
      have hf1 : isFreeAncAt qc.slots c1 = false := hnf' c1 (List.mem_cons_self _ _)
      have hf2 : isFreeAncAt qc.slots c2 = false :=
        hnf' c2 (List.mem_cons_of_mem _ (List.mem_cons_self _ _))
      have hft : isFreeAncAt qc.slots t = false :=
        hnf' t (List.mem_cons_of_mem _ (List.mem_cons_of_mem _
          (List.mem_append_right _ (List.mem_cons_self t []))))
      have hfcs : ∀ x ∈ cs, isFreeAncAt qc.slots x = false :=
        fun x hx => hnf' x (List.mem_cons_of_mem _ (List.mem_cons_of_mem _
          (List.mem_append_left _ hx)))
      obtain ⟨qc', hrun, hg, hlen, hcore, hfree, hancs⟩ :=
        mcxChain_spec cs qc c1 c2 t hc1 hc2 ht hcs h12 h1t h2t h1cs h2cs htcs hndcs
          hf1 hf2 hft hfcs
      have hlval : (c1 :: c2 :: cs).length - 2 = cs.length := by
        simp only [List.length_cons]
        omega
      rw [hlval]
      refine ⟨qc', by rw [hstep]; exact hrun, ?_, ?_, hcore, hfree, hancs⟩
      · rw [mcxGatesSpec_cons2]
        exact hg
      · exact hlen

theorem c3_mcx_witness :
    (([0, 1, 2] : List Nat) ≠ [] ∧
     (∀ x ∈ ([0, 1, 2] : List Nat) ++ [3], x < c3wCircuit.num_qubits) ∧
     ((([0, 1, 2] : List Nat) ++ [3]).Nodup) ∧
     (∀ x ∈ ([0, 1, 2] : List Nat) ++ [3], isFreeAncAt c3wCircuit.slots x = false)) ∧
    (∃ qc', c3wCircuit.mcx (([0, 1, 2] : List Nat).map QRef.idx) (QRef.idx 3) = .ok qc' ∧
      qc'.gates = c3wCircuit.gates ++ mcxGatesSpec [0, 1, 2] 3
        (allocs (freePosAux c3wCircuit.slots 0) c3wCircuit.num_qubits
          (([0, 1, 2] : List Nat).length - 2)) ∧
      qc'.num_qubits = c3wCircuit.num_qubits
        + ((([0, 1, 2] : List Nat).length - 2) - (freePosAux c3wCircuit.slots 0).length) ∧
      (∀ j, j < c3wCircuit.num_qubits →
        slotCoreAt qc'.slots j = slotCoreAt c3wCircuit.slots j) ∧
      (∀ j, isFreeAncAt qc'.slots j = true → isFreeAncAt c3wCircuit.slots j = true) ∧
      (∀ a ∈ allocs (freePosAux c3wCircuit.slots 0) c3wCircuit.num_qubits
          (([0, 1, 2] : List Nat).length - 2),
        isAncAt qc'.slots a = true ∧ isFreeAncAt qc'.slots a = false)) :=
  ⟨⟨by decide, by decide, by decide, by decide⟩,
   c3_mcx c3wCircuit [0, 1, 2] 3 (by decide) (by decide) (by decide) (by decide)⟩
